import Mathlib

/-!
Verification of the Smart-Summarizer core against its source.

Shallow embedding of `src/summarizer.py` and `src/llm_client.py`:
strings are `String`/`List Char`, Python dicts produced by `json.loads`
are association lists with Python-dict insertion semantics, the LLM is an
oracle (`Nat → Option String` for the raw Gemini responses of the client,
`Nat → GenCall → Except String ObjT` for the abstract Section Generator
seen by the orchestrator), and Python exceptions are `Except.error`.
-/

/-- Whitespace as used by Python `str.split`, `str.strip` and `re` `\s`
(the ASCII whitespace characters; exotic Unicode spaces are not modelled). -/
def pyWsB (c : Char) : Bool :=
  c = ' ' || c = '\t' || c = '\n' || c = '\r' || c = '\x0b' || c = '\x0c'

/-- JSON whitespace skipped by Python `json.loads` between tokens. -/
def jsonWsB (c : Char) : Bool :=
  c = ' ' || c = '\t' || c = '\n' || c = '\r'

/-- Python `str.strip()` on a character list. -/
def pyStripChars (cs : List Char) : List Char :=
  ((cs.dropWhile pyWsB).reverse.dropWhile pyWsB).reverse

/-- Python `str.strip()`. -/
def pyStrip (s : String) : String := ⟨pyStripChars s.data⟩

/-- Python `re.sub(r"\s+", " ", s)`: every maximal whitespace run becomes one
space.  The Boolean flag records whether the previous character was whitespace
(i.e. whether we are inside a run that already emitted its space). -/
def collapseAux : Bool → List Char → List Char
  | _, [] => []
  | prevWs, c :: cs =>
    if pyWsB c then
      if prevWs then collapseAux true cs else ' ' :: collapseAux true cs
    else c :: collapseAux false cs

/-- `_normalize_whitespace` from src/summarizer.py:
`re.sub(r"\s+", " ", s or "").strip()`; `None` is mapped to `""` by `s or ""`. -/
def _normalize_whitespace (s : Option String) : String :=
  pyStrip ⟨collapseAux false (s.getD "").data⟩

/-- Python `s.split()` (split on whitespace runs, no empty words); the
accumulator holds the current word reversed. -/
def wordsAux : List Char → List Char → List (List Char)
  | [], acc => if acc.isEmpty then [] else [acc.reverse]
  | c :: cs, acc =>
    if pyWsB c then
      if acc.isEmpty then wordsAux cs [] else acc.reverse :: wordsAux cs []
    else wordsAux cs (c :: acc)

def wordsOf (cs : List Char) : List (List Char) := wordsAux cs []

/-- Python `s.split()`. -/
def pySplit (s : String) : List String := (wordsOf s.data).map (⟨·⟩)

/-- Python `len(s.split())`: the word count used throughout the summarizer. -/
def wcS (s : String) : Nat := (pySplit s).length

/-- Python `" ".join(l)`. -/
def joinSp : List String → String
  | [] => ""
  | [s] => s
  | s :: rest => s ++ " " ++ joinSp rest

/-- Python `"\n\n".join(l)`. -/
def joinNN : List String → String
  | [] => ""
  | [s] => s
  | s :: rest => s ++ "\n\n" ++ joinNN rest

/-! ### Sentence segmenter (`_split_into_sentences`, src/summarizer.py lines 12-43) -/

/-- Terminal punctuation `[.!?]` of the segmenter's regexes. -/
def psPunct (c : Char) : Bool := c = '.' || c = '!' || c = '?'

/-- `len(re.findall(r"[.!?]", cleaned))`. -/
def countPunct (cs : List Char) : Nat := (cs.filter psPunct).length

/-- Pseudo-sentence grouping `[words[i:i+n] for i in range(0, len(words), n)]`,
written with explicit fuel (one step consumes at least one element, so
`fuel = length` suffices) to stay kernel-reducible. -/
def groupsGo (n : Nat) : Nat → List α → List (List α)
  | 0, _ => []
  | _ + 1, [] => []
  | f + 1, x :: xs => ((x :: xs).take n) :: groupsGo n f ((x :: xs).drop n)

/-- `re.split(r"(?<=[.!?])\s+", cleaned)`: split at whitespace runs that follow
terminal punctuation.  Mode `true` means we are inside a separator run; the
accumulator holds the current fragment reversed. -/
def splitPA : Bool → List Char → List Char → List (List Char)
  | true, [], _ => [[]]
  | false, [], acc => [acc.reverse]
  | true, c :: cs, acc =>
    if pyWsB c then splitPA true cs acc else splitPA false cs [c]
  | false, c :: cs, acc =>
    if pyWsB c && (match acc with | p :: _ => psPunct p | [] => false) then
      acc.reverse :: splitPA true cs []
    else splitPA false cs (c :: acc)

/-- The fragment-merging loop of `_split_into_sentences`: fragments shorter
than 4 words accumulate in `buf`; `buf` is flushed once it reaches 4 words,
when a 4-word fragment arrives, or at end of input. -/
def mergeGo : List String → String → List String
  | [], buf => if buf = "" then [] else [buf]
  | p :: rest, buf =>
    if (pySplit p).length < 4 then
      let buf2 := pyStrip (buf ++ " " ++ p)
      if 4 ≤ (pySplit buf2).length then buf2 :: mergeGo rest "" else mergeGo rest buf2
    else
      if buf = "" then pyStrip p :: mergeGo rest ""
      else buf :: pyStrip p :: mergeGo rest ""

/-- `_split_into_sentences` from src/summarizer.py. -/
def _split_into_sentences (text : String) : List String :=
  let cleaned := _normalize_whitespace (some text)
  if countPunct cleaned.data < max 1 (cleaned.data.length / 1000) then
    (groupsGo 30 (pySplit cleaned).length (pySplit cleaned)).map joinSp
  else
    (mergeGo ((splitPA false cleaned.data []).map (fun p => (⟨p⟩ : String))) "").filter
      (fun p => decide (p ≠ ""))

/-! ### Chunk builder (`_chunk_by_words`, src/summarizer.py lines 46-79) -/

/-- The greedy accumulation loop of `_chunk_by_words`.  `current` is the list
of sentences of the open chunk, `currentWords` the running word count.
`target` and `overlap` are the (per the claims non-negative) parameters. -/
def chunkGo (target overlap : Nat) : List String → List String → Nat → List String
  | [], current, _ => if current.isEmpty then [] else [joinSp current]
  | sent :: rest, current, currentWords =>
    let w := wcS sent
    if decide (target < currentWords + w) && !current.isEmpty then
      let chunk := joinSp current
      if 0 < overlap then
        let ws := pySplit chunk
        let tail := joinSp (ws.drop (ws.length - overlap))
        chunk :: chunkGo target overlap rest [tail, sent] (wcS tail + w)
      else
        chunk :: chunkGo target overlap rest [sent] w
    else
      chunkGo target overlap rest (current ++ [sent]) (currentWords + w)

/-- `_chunk_by_words` from src/summarizer.py: run the greedy loop, then
`[_normalize_whitespace(c) for c in chunks if _normalize_whitespace(c)]`. -/
def _chunk_by_words (sentences : List String) (target overlap : Nat) : List String :=
  (chunkGo target overlap sentences [] 0).filterMap (fun c =>
    let n := _normalize_whitespace (some c)
    if n = "" then none else some n)

/-! ### Budget allocator (`_proportional_words`, src/summarizer.py lines 82-90)

Python evaluates `final_target * (chunk_words / total_words) * 1.2` with
IEEE-754 doubles; the model below uses exact rational arithmetic instead
(the only divergence is the final rounding of `alloc` on boundary inputs,
which is why the corresponding claim about the numeric formula is treated
as not statable in this embedding). -/

/-- Python `int()` (truncation toward zero) of a rational. -/
def pyIntOfRat (q : ℚ) : Int := if q < 0 then ⌈q⌉ else ⌊q⌋

/-- `_proportional_words` from src/summarizer.py, rational-arithmetic model. -/
def _proportional_words (total_words chunk_words final_target : Int) : Int :=
  if total_words ≤ 0 then max 50 (min final_target 2000)
  else
    let alloc := pyIntOfRat ((final_target : ℚ) * ((chunk_words : ℚ) / (total_words : ℚ)) * (6 / 5))
    max 80 (min alloc (max 200 final_target))

/-! ### JSON values and Python dict operations

`json.loads` returns dicts (insertion-ordered, duplicate keys overwritten in
place), lists, strings, numbers, booleans and `None`.  Numbers are kept as
their lexemes (Python maps them to int/float; none of the verified claims
depends on numeric values). -/

inductive JsonVal : Type where
  | null
  | bool (b : Bool)
  | num (lexeme : String)
  | str (s : String)
  | arr (elems : List JsonVal)
  | obj (fields : List (String × JsonVal))

/-- Python dict lookup `d[k]` / `k in d` (association lists built below never
hold duplicate keys, matching dict semantics). -/
def pyGet : List (String × JsonVal) → String → Option JsonVal
  | [], _ => none
  | (k, v) :: rest, key => if k = key then some v else pyGet rest key

/-- Python `d.get(k, dflt)`. -/
def pyGetD (o : List (String × JsonVal)) (key : String) (dflt : JsonVal) : JsonVal :=
  (pyGet o key).getD dflt

/-- Python dict assignment `d[k] = v`: overwrite in place, else append. -/
def dictInsert : List (String × JsonVal) → String → JsonVal → List (String × JsonVal)
  | [], key, v => [(key, v)]
  | (k, w) :: rest, key, v =>
    if k = key then (k, v) :: rest else (k, w) :: dictInsert rest key v

/-- Python `d.setdefault(k, v)`. -/
def setdefault (o : List (String × JsonVal)) (key : String) (v : JsonVal) :
    List (String × JsonVal) :=
  match pyGet o key with
  | some _ => o
  | none => o ++ [(key, v)]

/-! ### `json.loads` (Python's recursive-descent JSON scanner)

A fuel-indexed recursive-descent parser over `List Char` mirroring Python's
`json.scanner`/`json.decoder` in strict mode.  Every recursive call consumes
at least one character before spending one unit of fuel, so
`fuel = length + 1` always suffices.  Two deliberate deviations, both
irrelevant to the claims: `\uXXXX` escapes demand exactly four hex digits
(Python's `int(esc, 16)` also tolerates signs/underscores), and lone
surrogates are rejected (Lean strings cannot hold them). -/

def skipWs : List Char → List Char
  | [] => []
  | c :: cs => if jsonWsB c then skipWs cs else c :: cs

def hexVal? (c : Char) : Option Nat :=
  if '0' ≤ c ∧ c ≤ '9' then some (c.toNat - '0'.toNat)
  else if 'a' ≤ c ∧ c ≤ 'f' then some (c.toNat - 'a'.toNat + 10)
  else if 'A' ≤ c ∧ c ≤ 'F' then some (c.toNat - 'A'.toNat + 10)
  else none

def escChar? (c : Char) : Option Char :=
  if c = '"' then some '"'
  else if c = '\\' then some '\\'
  else if c = '/' then some '/'
  else if c = 'b' then some '\x08'
  else if c = 'f' then some '\x0c'
  else if c = 'n' then some '\n'
  else if c = 'r' then some '\r'
  else if c = 't' then some '\t'
  else none

def hex4? : List Char → Option (Nat × List Char)
  | a :: b :: c :: d :: rest =>
    match hexVal? a, hexVal? b, hexVal? c, hexVal? d with
    | some x, some y, some z, some w => some (((x * 16 + y) * 16 + z) * 16 + w, rest)
    | _, _, _, _ => none
  | _ => none

/-- Python `scanstring` (strict): input is positioned after the opening quote;
`acc` holds the decoded characters reversed. -/
def parseStringRest : Nat → List Char → List Char → Option (String × List Char)
  | 0, _, _ => none
  | _ + 1, _, [] => none
  | f + 1, acc, c :: cs =>
    if c = '"' then some (⟨acc.reverse⟩, cs)
    else if c = '\\' then
      match cs with
      | [] => none
      | e :: cs2 =>
        if e = 'u' then
          match hex4? cs2 with
          | none => none
          | some (u, cs3) =>
            if 0xD800 ≤ u ∧ u ≤ 0xDBFF then
              match cs3 with
              | '\\' :: 'u' :: cs4 =>
                match hex4? cs4 with
                | some (u2, cs5) =>
                  if 0xDC00 ≤ u2 ∧ u2 ≤ 0xDFFF then
                    parseStringRest f
                      (Char.ofNat (0x10000 + (u - 0xD800) * 0x400 + (u2 - 0xDC00)) :: acc) cs5
                  else none
                | none => none
              | _ => none
            else if 0xDC00 ≤ u ∧ u ≤ 0xDFFF then none
            else parseStringRest f (Char.ofNat u :: acc) cs3
        else
          match escChar? e with
          | some ch => parseStringRest f (ch :: acc) cs2
          | none => none
    else if c.toNat < 0x20 then none
    else parseStringRest f (c :: acc) cs

def isDigitB (c : Char) : Bool := '0' ≤ c && c ≤ '9'

/-- Optional fraction group `(\.\d+)?`: if absent, nothing is consumed. -/
def fracPart : List Char → List Char × List Char
  | '.' :: r =>
    let ds := r.takeWhile isDigitB
    if ds.isEmpty then ([], '.' :: r) else ('.' :: ds, r.dropWhile isDigitB)
  | cs => ([], cs)

/-- Optional exponent group `([eE][-+]?\d+)?`: if absent, nothing is consumed. -/
def expPart : List Char → List Char × List Char
  | [] => ([], [])
  | c :: r =>
    if c = 'e' ∨ c = 'E' then
      match r with
      | [] => ([], [c])
      | s :: r2 =>
        if s = '+' ∨ s = '-' then
          let ds := r2.takeWhile isDigitB
          if ds.isEmpty then ([], c :: s :: r2) else (c :: s :: ds, r2.dropWhile isDigitB)
        else
          let ds := r.takeWhile isDigitB
          if ds.isEmpty then ([], c :: r) else (c :: ds, r.dropWhile isDigitB)
    else ([], c :: r)

/-- The unsigned part of Python's `NUMBER_RE` (integer part `0|[1-9]\d*`,
then the optional fraction and exponent groups). -/
def parseNumCore (sgn : List Char) (cs1 : List Char) : Option (String × List Char) :=
  match cs1 with
  | [] => none
  | c :: r =>
    let ip? : Option (List Char × List Char) :=
      if c = '0' then some (['0'], r)
      else if isDigitB c then some (cs1.takeWhile isDigitB, cs1.dropWhile isDigitB)
      else none
    match ip? with
    | none => none
    | some (ip, rest1) =>
      let fp := (fracPart rest1).1
      let rest2 := (fracPart rest1).2
      let ep := (expPart rest2).1
      let rest3 := (expPart rest2).2
      some (⟨sgn ++ ip ++ fp ++ ep⟩, rest3)

/-- Python's `NUMBER_RE`: `(-?(?:0|[1-9]\d*))(\.\d+)?([eE][-+]?\d+)?`. -/
def parseNumber (cs : List Char) : Option (String × List Char) :=
  if cs.head? = some '-' then parseNumCore ['-'] cs.tail else parseNumCore [] cs

/-- Consume a literal continuation (e.g. `"ull"` after `'n'`). -/
def stripLit (lit : List Char) (cs : List Char) : Option (List Char) :=
  if cs.take lit.length = lit then some (cs.drop lit.length) else none

mutual

/-- Python `scan_once`: dispatch on the first character (no leading
whitespace expected). -/
def parseValue : Nat → List Char → Option (JsonVal × List Char)
  | 0, _ => none
  | _ + 1, [] => none
  | f + 1, c :: cs =>
    if c = '"' then
      match parseStringRest f [] cs with
      | some (s, rest) => some (.str s, rest)
      | none => none
    else if c = '{' then
      match skipWs cs with
      | '}' :: rest => some (.obj [], rest)
      | cs2 => parseMembers f cs2 []
    else if c = '[' then
      match skipWs cs with
      | ']' :: rest => some (.arr [], rest)
      | cs2 => parseElements f cs2 []
    else if c = 'n' then
      match stripLit "ull".data cs with
      | some rest => some (.null, rest)
      | none => none
    else if c = 't' then
      match stripLit "rue".data cs with
      | some rest => some (.bool true, rest)
      | none => none
    else if c = 'f' then
      match stripLit "alse".data cs with
      | some rest => some (.bool false, rest)
      | none => none
    else if c = 'N' then
      match stripLit "aN".data cs with
      | some rest => some (.num "NaN", rest)
      | none => none
    else if c = 'I' then
      match stripLit "nfinity".data cs with
      | some rest => some (.num "Infinity", rest)
      | none => none
    else if c = '-' ∧ cs.take 8 = "Infinity".data then
      some (.num "-Infinity", cs.drop 8)
    else
      match parseNumber (c :: cs) with
      | some (lex, rest) => some (.num lex, rest)
      | none => none

/-- Python `JSONObject` member loop: expects a `'"'` (the empty-object case
was already handled by the caller); returns the object and the input just
after the closing `'}'`. -/
def parseMembers : Nat → List Char → List (String × JsonVal) →
    Option (JsonVal × List Char)
  | 0, _, _ => none
  | _ + 1, [], _ => none
  | f + 1, c :: cs, acc =>
    if c = '"' then
      match parseStringRest f [] cs with
      | none => none
      | some (key, r1) =>
        match skipWs r1 with
        | ':' :: r2 =>
          match parseValue f (skipWs r2) with
          | none => none
          | some (v, r3) =>
            match skipWs r3 with
            | ',' :: r4 => parseMembers f (skipWs r4) (dictInsert acc key v)
            | '}' :: r4 => some (.obj (dictInsert acc key v), r4)
            | _ => none
        | _ => none
    else none

/-- Python `JSONArray` element loop: returns the array and the input just
after the closing `']'`. -/
def parseElements : Nat → List Char → List JsonVal → Option (JsonVal × List Char)
  | 0, _, _ => none
  | f + 1, cs, acc =>
    match parseValue f cs with
    | none => none
    | some (v, r1) =>
      match skipWs r1 with
      | ',' :: r2 => parseElements f (skipWs r2) (acc ++ [v])
      | ']' :: r2 => some (.arr (acc ++ [v]), r2)
      | _ => none

end

/-- Python `json.loads`: skip leading whitespace, scan one value, demand that
only whitespace remains (else "Extra data"). -/
def loadsChars (cs : List Char) : Option JsonVal :=
  match parseValue ((skipWs cs).length + 1) (skipWs cs) with
  | some (v, rest) => if (skipWs rest).isEmpty then some v else none
  | none => none

def loads (s : String) : Option JsonVal := loadsChars s.data

/-! ### `GeminiClient._extract_json` (src/llm_client.py lines 23-53)

The two `re.sub` calls are modelled for pre-stripped input (the source strips
before each substitution, so `$` coincides with end-of-string). -/

def fence3 : List Char := "```".data

/-- Does `^```json` (IGNORECASE) match? -/
def fenceJsonAtStart (cs : List Char) : Bool :=
  decide (cs.take 3 = fence3) &&
    decide (((cs.drop 3).take 4).map Char.toLower = "json".data)

def fenceAtStart (cs : List Char) : Bool := decide (cs.take 3 = fence3)

/-- The `\s*```$` alternative of both substitutions: remove a terminal
triple-backtick together with the whitespace run before it. -/
def stripTrailFence (cs : List Char) : List Char :=
  if cs.reverse.take 3 = fence3 then ((cs.reverse.drop 3).dropWhile pyWsB).reverse else cs

/-- `re.sub(r"^```json\s*|\s*```$", "", text, IGNORECASE | DOTALL)`. -/
def subFenceJson (cs : List Char) : List Char :=
  stripTrailFence (if fenceJsonAtStart cs then (cs.drop 7).dropWhile pyWsB else cs)

/-- `re.sub(r"^```\s*|\s*```$", "", text, IGNORECASE | DOTALL)`. -/
def subFence (cs : List Char) : List Char :=
  stripTrailFence (if fenceAtStart cs then (cs.drop 3).dropWhile pyWsB else cs)

/-- `re.search(r"\{.*\}", text, DOTALL)`: greedy, so the match runs from the
first `'{'` to the last `'}'` (needing at least one `'}'` strictly after). -/
def braceBlock (cs : List Char) : Option (List Char) :=
  match cs.findIdx? (· = '{') with
  | none => none
  | some i =>
    match cs.reverse.findIdx? (· = '}') with
    | none => none
    | some jr =>
      let j := cs.length - 1 - jr
      if i < j then some ((cs.drop i).take (j - i + 1)) else none

/-- `re.sub(r"(?<!\\)'", '"', candidate)`: replace every single quote not
preceded (in the original string) by a backslash. -/
def repairQuotes : Option Char → List Char → List Char
  | _, [] => []
  | prev, c :: cs =>
    (if c = '\'' ∧ prev ≠ some '\\' then '"' else c) :: repairQuotes (some c) cs

/-- `GeminiClient._extract_json` for a non-`None` response text: strip fences,
try a direct parse, then the first brace-delimited block, then the block with
single quotes repaired; error messages stand in for the Python exceptions. -/
def _extract_json (text : String) : Except String JsonVal :=
  let cs0 := pyStripChars text.data
  let cs1 := pyStripChars (subFenceJson cs0)
  let cs2 := pyStripChars (subFence cs1)
  match loadsChars cs2 with
  | some v => .ok v
  | none =>
    match braceBlock cs2 with
    | some cand =>
      match loadsChars cand with
      | some v => .ok v
      | none =>
        match loadsChars (repairQuotes none cand) with
        | some v => .ok v
        | none => .error "json.JSONDecodeError"
    | none => .error "Could not parse JSON from model output."

/-! ### `GeminiClient.generate_sections` (src/llm_client.py lines 55-105)

The network is an oracle `responses : Nat → Option String` giving the raw
text of attempt `i` (`none` models a response object without a `text`
attribute).  Python lets a non-dict JSON value out of `_extract_json` and
then crashes on the first dict operation applied to it (`in` for numbers,
`.get`/`.setdefault` for lists and strings); since no path returns such a
value, `_call` reports the error directly. -/

abbrev ObjT := List (String × JsonVal)

/-- The inner `_call`: fetch response text, extract JSON, normalize a `null`
`key_takeaways` to `[]`. -/
def _call (responses : Nat → Option String) (i : Nat) : Except String ObjT :=
  match responses i with
  | none => .error "Empty response from model."
  | some text =>
    match _extract_json text with
    | .error e => .error e
    | .ok (JsonVal.obj o) =>
      .ok (match pyGet o "key_takeaways" with
        | some JsonVal.null => dictInsert o "key_takeaways" (.arr [])
        | _ => o)
    | .ok _ => .error "TypeError: model output is not a JSON object"

/-- `kt = data.get("key_takeaways", [])` followed by
`if not isinstance(kt, list): kt = []`. -/
def asList : Option JsonVal → List JsonVal
  | some (JsonVal.arr xs) => xs
  | _ => []

/-- `GeminiClient.generate_sections`: validate the takeaway count, retry once
on mismatch, then pad/truncate locally; finally `setdefault` both keys.
`takeaways_count` is `Option Int` to reflect the `is not None` guard. -/
def generate_sections (responses : Nat → Option String) (takeaways_count : Option Int) :
    Except String ObjT :=
  match _call responses 0 with
  | .error e => .error e
  | .ok data0 =>
    let step : Except String ObjT :=
      match takeaways_count with
      | some k =>
        if 0 ≤ k then
          let kt := asList (pyGet data0 "key_takeaways")
          if (kt.length : Int) = k then .ok data0
          else
            match _call responses 1 with
            | .error e => .error e
            | .ok data2 =>
              let kt2 := asList (pyGet data2 "key_takeaways")
              let kt3 :=
                if (kt2.length : Int) < k then
                  kt2 ++ List.replicate (k - kt2.length).toNat (.str "")
                else kt2.take k.toNat
              .ok (dictInsert data2 "key_takeaways" (.arr kt3))
        else .ok data0
      | none => .ok data0
    match step with
    | .error e => .error e
    | .ok data1 =>
      .ok (setdefault (setdefault data1 "summary" (.str "")) "key_takeaways" (.arr []))

/-! ### Map-reduce orchestrator (`summarize_document`, src/summarizer.py lines 93-147)

The Section Generator is an oracle `gen : Nat → GenCall → Except String ObjT`
indexed by the number of calls made so far; `summarize_document` returns its
result together with the list of calls it issued, in order. -/

/-- One call to the Section Generator (`model` is an opaque string threaded
through unchanged and therefore omitted). -/
structure GenCall where
  text : String
  summary_words : Int
  takeaways_count : Int
deriving DecidableEq

/-- The map loop: one generator call per chunk, in order, collecting the raw
`mini.get("summary", "")` values; a generator failure aborts the loop. -/
def mapLoop (gen : Nat → GenCall → Except String ObjT) (n_words : Nat) (target : Int) :
    Nat → List String → Except String (List JsonVal) × List GenCall
  | _, [] => (.ok [], [])
  | i, c :: rest =>
    let call : GenCall := ⟨c, _proportional_words (n_words : Int) ((pySplit c).length : Int) target, 0⟩
    match gen i call with
    | .error e => (.error e, [call])
    | .ok mini =>
      let r := mapLoop gen n_words target (i + 1) rest
      (r.1.map (fun l => pyGetD mini "summary" (.str "") :: l), call :: r.2)

/-- Python evaluates `s.strip()` on each collected summary inside the reduce
join; a non-string summary raises there (before the reduce call). -/
def asStrs : List JsonVal → Except String (List String)
  | [] => .ok []
  | JsonVal.str s :: rest => (asStrs rest).map (s :: ·)
  | _ :: _ => .error "AttributeError: summary value is not a string"

/-- `summarize_document` from src/summarizer.py. -/
def summarize_document (gen : Nat → GenCall → Except String ObjT)
    (raw_text : Option String) (target_words takeaways_count : Int) :
    Except String ObjT × List GenCall :=
  let text := _normalize_whitespace raw_text
  let n_words := (pySplit text).length
  if n_words < 60 then
    let call : GenCall := ⟨text, min target_words (max 30 (n_words : Int)), takeaways_count⟩
    match gen 0 call with
    | .error e => (.error e, [call])
    | .ok mini =>
      (.ok [("summary", .str text), ("key_takeaways", pyGetD mini "key_takeaways" (.arr []))],
        [call])
  else
    let sentences := _split_into_sentences text
    let chunks := _chunk_by_words sentences 2400 200
    let mr := mapLoop gen n_words target_words 0 chunks
    match mr.1 with
    | .error e => (.error e, mr.2)
    | .ok minis =>
      match asStrs minis with
      | .error e => (.error e, mr.2)
      | .ok strs =>
        let combined := joinNN (strs.filter (fun s => decide (pyStrip s ≠ "")))
        let rcall : GenCall := ⟨combined, target_words, takeaways_count⟩
        (gen mr.2.length rcall, mr.2 ++ [rcall])

/-- The empty-input guard of the UI layer (src/app.py line 59):
`if not raw_text or not raw_text.strip()`. -/
def app_rejects_input (raw_text : String) : Bool :=
  decide (raw_text = "") || decide (pyStrip raw_text = "")

/-- The chunk list computed by the long-input path of `summarize_document`
(src/summarizer.py lines 122-123). -/
def docChunks (raw_text : Option String) : List String :=
  _chunk_by_words (_split_into_sentences (_normalize_whitespace raw_text)) 2400 200

/-- The generator call issued for one chunk in the map step
(src/summarizer.py lines 129-136): the chunk text, its proportional budget,
and `takeaways_count = 0`. -/
def chunkCall (raw_text : Option String) (target : Int) (c : String) : GenCall :=
  ⟨c, _proportional_words ((pySplit (_normalize_whitespace raw_text)).length : Int)
      ((pySplit c).length : Int) target, 0⟩

/-! ### Basic word-list lemmas -/

theorem str_data_append (a b : String) : (a ++ b).data = a.data ++ b.data := rfl

theorem wordsAux_ne_nil : ∀ (cs acc : List Char), acc ≠ [] → wordsAux cs acc ≠ []
  | [], acc, h => by simp [wordsAux, List.isEmpty_iff, h]
  | c :: cs, acc, h => by
    by_cases hc : pyWsB c
    · simp [wordsAux, hc, List.isEmpty_iff, h]
    · simpa [wordsAux, hc] using wordsAux_ne_nil cs (c :: acc) (by simp)

theorem wordsAux_append_ws {c : Char} (hc : pyWsB c = true) (b : List Char) :
    ∀ (a acc : List Char), wordsAux (a ++ c :: b) acc = wordsAux a acc ++ wordsAux b []
  | [], acc => by cases acc <;> simp [wordsAux, hc]
  | d :: a, acc => by
    by_cases hd : pyWsB d
    · cases acc <;> simp [wordsAux, hd, wordsAux_append_ws hc b a]
    · simp [wordsAux, hd, wordsAux_append_ws hc b a]

theorem wordsOf_append_ws {c : Char} (hc : pyWsB c = true) (a b : List Char) :
    wordsOf (a ++ c :: b) = wordsOf a ++ wordsOf b :=
  wordsAux_append_ws hc b a []

theorem wordsAux_dropWhile_ws : ∀ cs : List Char,
    wordsAux (cs.dropWhile pyWsB) [] = wordsAux cs []
  | [] => rfl
  | c :: cs => by
    by_cases h : pyWsB c
    · simp [List.dropWhile_cons, h, wordsAux, wordsAux_dropWhile_ws cs]
    · simp [List.dropWhile_cons, h]

theorem wordsAux_all_ws : ∀ (w : List Char), (∀ x ∈ w, pyWsB x = true) → ∀ acc,
    wordsAux w acc = if acc.isEmpty then [] else [acc.reverse]
  | [], _, acc => rfl
  | c :: w, h, acc => by
    have hc : pyWsB c := h c (by simp)
    have hw : ∀ x ∈ w, pyWsB x := fun x hx => h x (by simp [hx])
    cases acc <;> simp [wordsAux, hc, wordsAux_all_ws w hw]

theorem wordsAux_append_all_ws {w : List Char} (hw : ∀ x ∈ w, pyWsB x = true) :
    ∀ (core acc : List Char), wordsAux (core ++ w) acc = wordsAux core acc
  | [], acc => by simpa [wordsAux] using wordsAux_all_ws w hw acc
  | d :: core, acc => by
    by_cases hd : pyWsB d
    · cases acc <;> simp [wordsAux, hd, wordsAux_append_all_ws hw core]
    · simp [wordsAux, hd, wordsAux_append_all_ws hw core]

theorem wordsOf_pyStripChars (cs : List Char) : wordsOf (pyStripChars cs) = wordsOf cs := by
  unfold pyStripChars
  set l := cs.dropWhile pyWsB with hl
  have h1 : wordsOf l = wordsOf cs := wordsAux_dropWhile_ws cs
  have hdec : l = (l.reverse.dropWhile pyWsB).reverse ++ (l.reverse.takeWhile pyWsB).reverse := by
    rw [← List.reverse_append, List.takeWhile_append_dropWhile, List.reverse_reverse]
  have hws : ∀ x ∈ (l.reverse.takeWhile pyWsB).reverse, pyWsB x = true := by
    intro x hx
    exact List.mem_takeWhile_imp (by simpa using hx)
  calc wordsOf ((l.reverse.dropWhile pyWsB).reverse)
      = wordsOf ((l.reverse.dropWhile pyWsB).reverse ++ (l.reverse.takeWhile pyWsB).reverse) :=
        (wordsAux_append_all_ws hws _ []).symm
    _ = wordsOf l := by rw [← hdec]
    _ = wordsOf cs := h1

theorem wordsAux_collapseAux : ∀ (cs : List Char) (flag : Bool) (acc : List Char),
    (flag = true → acc = []) → wordsAux (collapseAux flag cs) acc = wordsAux cs acc
  | [], flag, acc, _ => by cases flag <;> rfl
  | c :: cs, flag, acc, h => by
    by_cases hc : pyWsB c
    · cases flag with
      | true =>
        have : acc = [] := h rfl
        subst this
        simp [collapseAux, hc, wordsAux, wordsAux_collapseAux cs true [] (fun _ => rfl)]
      | false =>
        have hsp : pyWsB ' ' = true := by decide
        cases acc with
        | nil => simp [collapseAux, hc, wordsAux, hsp,
            wordsAux_collapseAux cs true [] (fun _ => rfl)]
        | cons x xs => simp [collapseAux, hc, wordsAux, hsp,
            wordsAux_collapseAux cs true [] (fun _ => rfl)]
    · simp [collapseAux, hc, wordsAux,
        wordsAux_collapseAux cs false (c :: acc) (by simp)]

theorem pySplit_normalize (s : String) :
    pySplit (_normalize_whitespace (some s)) = pySplit s := by
  unfold pySplit _normalize_whitespace
  congr 1
  show wordsOf (pyStrip ⟨collapseAux false s.data⟩).data = wordsOf s.data
  show wordsOf (pyStripChars (collapseAux false s.data)) = wordsOf s.data
  rw [wordsOf_pyStripChars]
  exact wordsAux_collapseAux s.data false [] (by simp)

theorem pySplit_pyStrip (s : String) : pySplit (pyStrip s) = pySplit s := by
  unfold pySplit
  congr 1
  exact wordsOf_pyStripChars s.data

theorem pySplit_append_space (a b : String) :
    pySplit (a ++ " " ++ b) = pySplit a ++ pySplit b := by
  unfold pySplit
  have : (a ++ " " ++ b).data = a.data ++ ' ' :: b.data := by
    rw [str_data_append, str_data_append]
    simp [List.append_assoc]
  rw [this, wordsOf_append_ws (by decide), List.map_append]

theorem pySplit_joinSp : ∀ l : List String, pySplit (joinSp l) = (l.map pySplit).flatten
  | [] => by simp [joinSp, pySplit, wordsOf, wordsAux]
  | [s] => by simp [joinSp]
  | s :: t :: rest => by
    have h : joinSp (s :: t :: rest) = s ++ " " ++ joinSp (t :: rest) := rfl
    rw [h, pySplit_append_space, pySplit_joinSp (t :: rest)]
    simp

theorem wordsAux_elems : ∀ (cs acc : List Char), (∀ x ∈ acc, pyWsB x = false) →
    ∀ w ∈ wordsAux cs acc, w ≠ [] ∧ ∀ x ∈ w, pyWsB x = false
  | [], acc, hacc, w, hw => by
    cases h : acc.isEmpty with
    | true => simp [wordsAux, h] at hw
    | false =>
      simp [wordsAux, h] at hw
      subst hw
      refine ⟨by simpa [List.isEmpty_iff] using h, ?_⟩
      intro x hx
      exact hacc x (by simpa using hx)
  | c :: cs, acc, hacc, w, hw => by
    by_cases hc : pyWsB c
    · cases h : acc.isEmpty with
      | true =>
        simp [wordsAux, hc, h] at hw
        exact wordsAux_elems cs [] (by simp) w hw
      | false =>
        simp [wordsAux, hc, h] at hw
        rcases hw with hw | hw
        · subst hw
          refine ⟨by simpa [List.isEmpty_iff] using h, ?_⟩
          intro x hx
          exact hacc x (by simpa using hx)
        · exact wordsAux_elems cs [] (by simp) w hw
    · simp only [wordsAux, hc, if_false] at hw
      have : ∀ x ∈ c :: acc, pyWsB x = false := by
        intro x hx
        rcases List.mem_cons.mp hx with rfl | hx
        · simpa using hc
        · exact hacc x hx
      exact wordsAux_elems cs (c :: acc) this w hw

theorem pySplit_elems (s : String) : ∀ w ∈ pySplit s, w ≠ "" ∧ ∀ x ∈ w.data, pyWsB x = false := by
  intro w hw
  unfold pySplit wordsOf at hw
  rcases List.mem_map.mp hw with ⟨cs, hcs, rfl⟩
  have hlem := wordsAux_elems s.data [] (by simp) cs hcs
  refine ⟨?_, hlem.2⟩
  intro hcon
  apply hlem.1
  have hd := congrArg String.data hcon
  simpa using hd

theorem wordsAux_single_word : ∀ (w acc : List Char), (∀ x ∈ w, pyWsB x = false) →
    wordsAux w acc = if (acc.reverse ++ w).isEmpty then [] else [acc.reverse ++ w]
  | [], acc, _ => by cases acc <;> simp [wordsAux]
  | c :: w, acc, h => by
    have hc : pyWsB c = false := h c (by simp)
    have hw : ∀ x ∈ w, pyWsB x = false := fun x hx => h x (by simp [hx])
    rw [wordsAux, if_neg (by simp [hc]), wordsAux_single_word w (c :: acc) hw]
    simp

theorem pySplit_word (w : String) (hne : w ≠ "") (hw : ∀ x ∈ w.data, pyWsB x = false) :
    pySplit w = [w] := by
  unfold pySplit wordsOf
  rw [wordsAux_single_word w.data [] hw]
  have : w.data ≠ [] := by
    intro hcon
    apply hne
    cases w with
    | mk d =>
      have hd : d = [] := hcon
      subst hd
      rfl
  simp [List.isEmpty_iff, this]

theorem flatten_map_singleton : ∀ l : List α, (l.map (fun w => [w])).flatten = l
  | [] => rfl
  | a :: t => by simp [flatten_map_singleton t]

theorem pySplit_joinSp_words (l : List String) (hne : ∀ w ∈ l, w ≠ "")
    (hws : ∀ w ∈ l, ∀ x ∈ w.data, pyWsB x = false) :
    pySplit (joinSp l) = l := by
  rw [pySplit_joinSp]
  have : l.map pySplit = l.map (fun w => [w]) := by
    apply List.map_congr_left
    intro w hw
    exact pySplit_word w (hne w hw) (hws w hw)
  rw [this]
  exact flatten_map_singleton l

theorem wordsOf_nil_iff (cs : List Char) : wordsOf cs = [] ↔ ∀ c ∈ cs, pyWsB c = true := by
  constructor
  · intro h
    induction cs with
    | nil => simp
    | cons c cs ih =>
      unfold wordsOf wordsAux at h
      by_cases hc : pyWsB c
      · simp only [hc, if_true, List.isEmpty_nil, if_true] at h
        intro x hx
        rcases List.mem_cons.mp hx with rfl | hx
        · exact hc
        · exact ih h x hx
      · simp only [hc, if_false] at h
        exact absurd h (wordsAux_ne_nil cs [c] (by simp))
  · intro h
    unfold wordsOf
    rw [wordsAux_all_ws cs h []]
    rfl

theorem pyStripChars_all_ws_eq_nil (cs : List Char)
    (h : ∀ c ∈ pyStripChars cs, pyWsB c = true) : pyStripChars cs = [] := by
  unfold pyStripChars at *
  set r := (cs.dropWhile pyWsB).reverse.dropWhile pyWsB with hr
  cases hcase : r with
  | nil => simp [hcase]
  | cons x xs =>
    exfalso
    have hx : pyWsB x = false := by
      have := List.head?_dropWhile_not pyWsB (cs.dropWhile pyWsB).reverse
      rw [← hr, hcase] at this
      simpa using this
    have : pyWsB x = true := h x (by simp [hcase])
    simp [hx] at this

theorem normalize_eq_empty_of_words_nil (s : String)
    (h : pySplit (_normalize_whitespace (some s)) = []) :
    _normalize_whitespace (some s) = "" := by
  have hw : wordsOf (_normalize_whitespace (some s)).data = [] := by
    unfold pySplit at h
    simpa using h
  have hall := (wordsOf_nil_iff _).mp hw
  have hdata : (_normalize_whitespace (some s)).data = pyStripChars (collapseAux false s.data) := rfl
  rw [hdata] at hall
  have : pyStripChars (collapseAux false s.data) = [] := pyStripChars_all_ws_eq_nil _ hall
  show pyStrip ⟨collapseAux false s.data⟩ = ""
  unfold pyStrip
  rw [show (String.mk (collapseAux false s.data)).data = collapseAux false s.data from rfl, this]

/-! ### Short-circuit behaviour of the orchestrator -/

/-- Shared shape of the `n_words < 60` branch of `summarize_document`. -/
theorem summarize_short_spec (gen : Nat → GenCall → Except String ObjT)
    (raw : Option String) (target_words takeaways_count : Int)
    (h : (pySplit (_normalize_whitespace raw)).length < 60) :
    (summarize_document gen raw target_words takeaways_count).2 =
      [⟨_normalize_whitespace raw,
        min target_words (max 30 ((pySplit (_normalize_whitespace raw)).length : Int)),
        takeaways_count⟩] ∧
    ∀ mini, gen 0 ⟨_normalize_whitespace raw,
          min target_words (max 30 ((pySplit (_normalize_whitespace raw)).length : Int)),
          takeaways_count⟩ = .ok mini →
      (summarize_document gen raw target_words takeaways_count).1 =
        .ok [("summary", .str (_normalize_whitespace raw)),
          ("key_takeaways", pyGetD mini "key_takeaways" (.arr []))] := by
  constructor
  · simp only [summarize_document]
    rw [if_pos h]
    split <;> simp
  · intro mini hm
    simp only [summarize_document]
    rw [if_pos h, hm]

theorem pyStripChars_of_all_ws (cs : List Char) (h : ∀ c ∈ cs, pyWsB c = true) :
    pyStripChars cs = [] := by
  unfold pyStripChars
  have : cs.dropWhile pyWsB = [] := by
    induction cs with
    | nil => rfl
    | cons c cs ih =>
      rw [List.dropWhile_cons, if_pos (h c (by simp))]
      exact ih fun x hx => h x (by simp [hx])
  rw [this]
  rfl

/-- Claim C2: for inputs whose normalized word count is below 60,
`summarize_document` makes exactly one Section Generator call — with the
normalized text and the requested takeaway count — and (when that call
succeeds) returns the normalized input itself as `summary`, for every
`target_words`, with the `key_takeaways` taken from that single call. -/
theorem short_input_summary_identity (gen : Nat → GenCall → Except String ObjT)
    (raw : Option String) (target_words takeaways_count : Int)
    (h : (pySplit (_normalize_whitespace raw)).length < 60) :
    (summarize_document gen raw target_words takeaways_count).2 =
      [⟨_normalize_whitespace raw,
        min target_words (max 30 ((pySplit (_normalize_whitespace raw)).length : Int)),
        takeaways_count⟩] ∧
    ∀ mini, gen 0 ⟨_normalize_whitespace raw,
          min target_words (max 30 ((pySplit (_normalize_whitespace raw)).length : Int)),
          takeaways_count⟩ = .ok mini →
      (summarize_document gen raw target_words takeaways_count).1 =
        .ok [("summary", .str (_normalize_whitespace raw)),
          ("key_takeaways", pyGetD mini "key_takeaways" (.arr []))] :=
  summarize_short_spec gen raw target_words takeaways_count h

theorem short_input_summary_identity_witness :
    (summarize_document
        (fun _ _ => .ok [("summary", JsonVal.str "ignored"),
          ("key_takeaways", JsonVal.arr [JsonVal.str "a"])])
        (some "hello world") 200 3).2 = [⟨"hello world", 30, 3⟩] ∧
    (summarize_document
        (fun _ _ => .ok [("summary", JsonVal.str "ignored"),
          ("key_takeaways", JsonVal.arr [JsonVal.str "a"])])
        (some "hello world") 200 3).1 =
      .ok [("summary", JsonVal.str "hello world"),
        ("key_takeaways", JsonVal.arr [JsonVal.str "a"])] := by
  have h := short_input_summary_identity
    (fun _ _ => .ok [("summary", JsonVal.str "ignored"),
      ("key_takeaways", JsonVal.arr [JsonVal.str "a"])])
    (some "hello world") 200 3 (by decide)
  exact ⟨h.1, h.2 [("summary", JsonVal.str "ignored"),
    ("key_takeaways", JsonVal.arr [JsonVal.str "a"])] rfl⟩

/-- Claim C10: empty, whitespace-only, or `None` input is not rejected by
`summarize_document`: it normalizes to `""`, takes the short-circuit branch,
issues exactly one generator call with empty text, and (on success) returns
`""` as summary; rejection of empty input exists only in the UI layer. -/
theorem empty_input_reaches_generator (gen : Nat → GenCall → Except String ObjT)
    (raw : Option String) (target_words takeaways_count : Int)
    (h : raw = none ∨ ∀ c ∈ (raw.getD "").data, pyWsB c = true) :
    _normalize_whitespace raw = "" ∧
    (summarize_document gen raw target_words takeaways_count).2 =
      [⟨"", min target_words 30, takeaways_count⟩] ∧
    (∀ mini, gen 0 ⟨"", min target_words 30, takeaways_count⟩ = .ok mini →
      (summarize_document gen raw target_words takeaways_count).1 =
        .ok [("summary", JsonVal.str ""),
          ("key_takeaways", pyGetD mini "key_takeaways" (.arr []))]) ∧
    app_rejects_input (raw.getD "") = true := by
  have hn : _normalize_whitespace raw = "" := by
    rcases h with rfl | hws
    · rfl
    · cases raw with
      | none => rfl
      | some s =>
        apply normalize_eq_empty_of_words_nil
        rw [pySplit_normalize]
        unfold pySplit
        rw [(wordsOf_nil_iff s.data).mpr hws]
        rfl
  have h0 : (pySplit "").length = 0 := rfl
  have hlen : (pySplit (_normalize_whitespace raw)).length < 60 := by
    rw [hn, h0]
    norm_num
  have hs := summarize_short_spec gen raw target_words takeaways_count hlen
  rw [hn, h0] at hs
  norm_num at hs
  refine ⟨hn, hs.1, hs.2, ?_⟩
  rcases h with rfl | hws
  · rfl
  · unfold app_rejects_input
    have hstrip : pyStrip (raw.getD "") = "" := by
      unfold pyStrip
      rw [pyStripChars_of_all_ws _ hws]
    simp [hstrip]

theorem empty_input_reaches_generator_witness :
    _normalize_whitespace (some "   ") = "" ∧
    (summarize_document
        (fun _ _ => .ok [("summary", JsonVal.str "x"), ("key_takeaways", JsonVal.arr [])])
        (some "   ") 200 3).2 = [⟨"", 30, 3⟩] ∧
    (summarize_document
        (fun _ _ => .ok [("summary", JsonVal.str "x"), ("key_takeaways", JsonVal.arr [])])
        (some "   ") 200 3).1 =
      .ok [("summary", JsonVal.str ""), ("key_takeaways", JsonVal.arr [])] ∧
    app_rejects_input "   " = true := by
  have h := empty_input_reaches_generator
    (fun _ _ => .ok [("summary", JsonVal.str "x"), ("key_takeaways", JsonVal.arr [])])
    (some "   ") 200 3 (Or.inr (by decide))
  exact ⟨h.1, h.2.1, h.2.2.1 [("summary", JsonVal.str "x"), ("key_takeaways", JsonVal.arr [])] rfl,
    h.2.2.2⟩

/-! ### Pseudo-sentence mode of the segmenter (claim C7) -/

theorem groupsGo_nil (n : Nat) : ∀ f : Nat, groupsGo n f ([] : List α) = []
  | 0 => rfl
  | _ + 1 => rfl

theorem groupsGo_spec : ∀ (f : Nat) (xs : List α), xs.length ≤ f →
    (groupsGo 30 f xs).flatten = xs ∧
    (∀ g ∈ (groupsGo 30 f xs).dropLast, g.length = 30) ∧
    (∀ g ∈ groupsGo 30 f xs, g ≠ [] ∧ g.length ≤ 30)
  | 0, xs, h => by
    have : xs = [] := List.length_eq_zero.mp (Nat.le_zero.mp h)
    subst this
    exact ⟨rfl, by simp [groupsGo], by simp [groupsGo]⟩
  | f + 1, [], _ => ⟨rfl, by simp [groupsGo], by simp [groupsGo]⟩
  | f + 1, x :: xs, h => by
    have hdrop : ((x :: xs).drop 30).length ≤ f := by
      simp only [List.length_drop, List.length_cons]
      simp only [List.length_cons] at h
      omega
    obtain ⟨ihflat, ihfull, ihall⟩ := groupsGo_spec f ((x :: xs).drop 30) hdrop
    have hcons : groupsGo 30 (f + 1) (x :: xs) =
        ((x :: xs).take 30) :: groupsGo 30 f ((x :: xs).drop 30) := rfl
    refine ⟨?_, ?_, ?_⟩
    · rw [hcons, List.flatten_cons, ihflat, List.take_append_drop]
    · rw [hcons]
      cases hrest : groupsGo 30 f ((x :: xs).drop 30) with
      | nil => simp
      | cons r rs =>
        intro g hg
        rw [List.dropLast_cons_of_ne_nil (by simp)] at hg
        rcases List.mem_cons.mp hg with rfl | hg
        · -- the non-last head group: the tail is nonempty, so there are > 30 elements
          have hne : (x :: xs).drop 30 ≠ [] := by
            intro hcon
            rw [hcon, groupsGo_nil] at hrest
            exact absurd hrest.symm (by simp)
          have h30 : 30 ≤ (x :: xs).length := by
            by_contra hlt
            push_neg at hlt
            exact hne (List.drop_eq_nil_of_le (by omega))
          rw [List.length_take, Nat.min_eq_left h30]
        · rw [← hrest] at hg
          exact ihfull g hg
    · rw [hcons]
      intro g hg
      rcases List.mem_cons.mp hg with rfl | hg
      · constructor
        · simp
        · simp [List.length_take]
      · exact ihall g hg

theorem dropLast_map (f : α → β) : ∀ l : List α, (l.map f).dropLast = l.dropLast.map f
  | [] => rfl
  | [_] => rfl
  | a :: b :: t => by
    have h1 : (a :: b :: t).map f = f a :: (b :: t).map f := rfl
    rw [h1, List.dropLast_cons_of_ne_nil (by simp), List.dropLast_cons_of_ne_nil (by simp)]
    simp [dropLast_map f (b :: t)]

/-- Claim C7: when the punctuation density of the normalized text is below the
`max(1, len // 1000)` threshold, the segmenter splits on whitespace into
consecutive groups: every non-final pseudo-sentence has exactly 30 words, all
have between 1 and 30 words, their words cover the input's words in order,
and empty input yields the empty sequence. -/
theorem pseudo_sentence_mode (text : String)
    (h : countPunct (_normalize_whitespace (some text)).data <
      max 1 ((_normalize_whitespace (some text)).data.length / 1000)) :
    ((_split_into_sentences text).map pySplit).flatten =
        pySplit (_normalize_whitespace (some text)) ∧
    (∀ s ∈ (_split_into_sentences text).dropLast, wcS s = 30) ∧
    (∀ s ∈ _split_into_sentences text, 1 ≤ wcS s ∧ wcS s ≤ 30) ∧
    (_normalize_whitespace (some text) = "" → _split_into_sentences text = []) := by
  have hsplit : _split_into_sentences text =
      (groupsGo 30 (pySplit (_normalize_whitespace (some text))).length
        (pySplit (_normalize_whitespace (some text)))).map joinSp := by
    unfold _split_into_sentences
    rw [if_pos h]
  set cleaned := _normalize_whitespace (some text) with hc
  set ws := pySplit cleaned with hw
  obtain ⟨hflat, hfull, hall⟩ := groupsGo_spec ws.length ws le_rfl
  have hjoin : ∀ g ∈ groupsGo 30 ws.length ws, pySplit (joinSp g) = g := by
    intro g hg
    apply pySplit_joinSp_words
    · intro w hwmem
      have : w ∈ ws := by
        rw [← hflat]
        exact List.mem_flatten.mpr ⟨g, hg, hwmem⟩
      exact (pySplit_elems cleaned w this).1
    · intro w hwmem
      have : w ∈ ws := by
        rw [← hflat]
        exact List.mem_flatten.mpr ⟨g, hg, hwmem⟩
      exact (pySplit_elems cleaned w this).2
  refine ⟨?_, ?_, ?_, ?_⟩
  · rw [hsplit, List.map_map]
    have : (groupsGo 30 ws.length ws).map (pySplit ∘ joinSp) =
        (groupsGo 30 ws.length ws).map id := by
      apply List.map_congr_left
      intro g hg
      exact hjoin g hg
    rw [this]
    simpa using hflat
  · rw [hsplit]
    intro s hs
    rw [dropLast_map] at hs
    rcases List.mem_map.mp hs with ⟨g, hg, rfl⟩
    have hgmem : g ∈ groupsGo 30 ws.length ws := List.dropLast_subset _ hg
    unfold wcS
    rw [hjoin g hgmem]
    exact hfull g hg
  · rw [hsplit]
    intro s hs
    rcases List.mem_map.mp hs with ⟨g, hg, rfl⟩
    unfold wcS
    rw [hjoin g hg]
    obtain ⟨hne, hle⟩ := hall g hg
    exact ⟨List.length_pos.mpr hne, hle⟩
  · intro hempty
    rw [hsplit]
    have hws : ws = [] := by
      rw [hw, hempty]
      rfl
    rw [hws]
    rfl

theorem pseudo_sentence_mode_witness :
    ((_split_into_sentences "one two three four five six seven").map pySplit).flatten =
        pySplit (_normalize_whitespace (some "one two three four five six seven")) ∧
    (∀ s ∈ (_split_into_sentences "one two three four five six seven").dropLast, wcS s = 30) ∧
    (∀ s ∈ _split_into_sentences "one two three four five six seven",
      1 ≤ wcS s ∧ wcS s ≤ 30) ∧
    (_normalize_whitespace (some "one two three four five six seven") = "" →
      _split_into_sentences "one two three four five six seven" = []) :=
  pseudo_sentence_mode "one two three four five six seven" (by decide)

/-! ### Regular split mode of the segmenter (claim C5) -/

theorem wordsOf_cons_ws {c : Char} (hc : pyWsB c = true) (cs : List Char) :
    wordsOf (c :: cs) = wordsOf cs := by
  simp [wordsOf, wordsAux, hc]

theorem splitPA_words : ∀ (cs : List Char) (mode : Bool) (acc : List Char),
    ((splitPA mode cs acc).map wordsOf).flatten =
      wordsOf ((if mode then [] else acc.reverse) ++ cs)
  | [], true, acc => by simp [splitPA, wordsOf, wordsAux]
  | [], false, acc => by simp [splitPA]
  | c :: cs, true, acc => by
    by_cases hc : pyWsB c = true
    · rw [show splitPA true (c :: cs) acc = splitPA true cs acc from by simp [splitPA, hc]]
      rw [splitPA_words cs true acc]
      simp [wordsOf_cons_ws hc]
    · rw [show splitPA true (c :: cs) acc = splitPA false cs [c] from by
        simp [splitPA, hc]]
      rw [splitPA_words cs false [c]]
      simp
  | c :: cs, false, acc => by
    cases hcond : pyWsB c && (match acc with | p :: _ => psPunct p | [] => false) with
    | true =>
      have hc : pyWsB c = true := by
        have h2 := hcond
        simp only [Bool.and_eq_true] at h2
        exact h2.1
      rw [show splitPA false (c :: cs) acc = acc.reverse :: splitPA true cs [] from by
        simp [splitPA, hcond]]
      simp only [List.map_cons, List.flatten_cons, splitPA_words cs true []]
      simp [wordsOf_append_ws hc]
    | false =>
      rw [show splitPA false (c :: cs) acc = splitPA false cs (c :: acc) from by
        simp [splitPA, hcond]]
      rw [splitPA_words cs false (c :: acc)]
      simp

theorem mergeGo_words : ∀ (parts : List String) (buf : String),
    ((mergeGo parts buf).map pySplit).flatten = pySplit buf ++ (parts.map pySplit).flatten
  | [], buf => by
    by_cases hb : buf = ""
    · simp [mergeGo, hb, pySplit, wordsOf, wordsAux]
    · simp [mergeGo, hb]
  | p :: rest, buf => by
    have hb2 : pySplit (pyStrip (buf ++ " " ++ p)) = pySplit buf ++ pySplit p := by
      rw [pySplit_pyStrip, pySplit_append_space]
    by_cases hshort : (pySplit p).length < 4
    · by_cases hfl : 4 ≤ (pySplit (pyStrip (buf ++ " " ++ p))).length
      · rw [show mergeGo (p :: rest) buf = pyStrip (buf ++ " " ++ p) :: mergeGo rest "" from by
          simp [mergeGo, hshort, hfl]]
        simp only [List.map_cons, List.flatten_cons, mergeGo_words rest ""]
        rw [hb2]
        simp [pySplit, wordsOf, wordsAux]
      · rw [show mergeGo (p :: rest) buf = mergeGo rest (pyStrip (buf ++ " " ++ p)) from by
          simp [mergeGo, hshort, hfl]]
        rw [mergeGo_words rest _, hb2]
        simp
    · by_cases hb : buf = ""
      · rw [show mergeGo (p :: rest) buf = pyStrip p :: mergeGo rest "" from by
          simp [mergeGo, hshort, hb]]
        simp only [List.map_cons, List.flatten_cons, mergeGo_words rest ""]
        rw [pySplit_pyStrip]
        simp [hb, pySplit, wordsOf, wordsAux]
      · rw [show mergeGo (p :: rest) buf = buf :: pyStrip p :: mergeGo rest "" from by
          simp [mergeGo, hshort, hb]]
        simp only [List.map_cons, List.flatten_cons, mergeGo_words rest ""]
        rw [pySplit_pyStrip]
        simp [pySplit, wordsOf, wordsAux]

theorem pySplit_empty_of_eq_nil {s : String} (h : pySplit s = []) : wcS s = 0 := by
  unfold wcS
  rw [h]
  rfl

theorem ne_empty_of_words (s : String) (h : 1 ≤ (pySplit s).length) : s ≠ "" := by
  intro hcon
  subst hcon
  simp [pySplit, wordsOf, wordsAux] at h

theorem mergeGo_ne_empty : ∀ (parts : List String) (buf : String),
    ∀ x ∈ mergeGo parts buf, x ≠ ""
  | [], buf => by
    by_cases hb : buf = "" <;> simp [mergeGo, hb]
  | p :: rest, buf => by
    by_cases hshort : (pySplit p).length < 4
    · by_cases hfl : 4 ≤ (pySplit (pyStrip (buf ++ " " ++ p))).length
      · rw [show mergeGo (p :: rest) buf = pyStrip (buf ++ " " ++ p) :: mergeGo rest "" from by
          simp [mergeGo, hshort, hfl]]
        intro x hx
        rcases List.mem_cons.mp hx with rfl | hx
        · exact ne_empty_of_words _ (by omega)
        · exact mergeGo_ne_empty rest "" x hx
      · rw [show mergeGo (p :: rest) buf = mergeGo rest (pyStrip (buf ++ " " ++ p)) from by
          simp [mergeGo, hshort, hfl]]
        exact mergeGo_ne_empty rest _
    · have hp : pyStrip p ≠ "" := by
        apply ne_empty_of_words
        rw [pySplit_pyStrip]
        omega
      by_cases hb : buf = ""
      · rw [show mergeGo (p :: rest) buf = pyStrip p :: mergeGo rest "" from by
          simp [mergeGo, hshort, hb]]
        intro x hx
        rcases List.mem_cons.mp hx with rfl | hx
        · exact hp
        · exact mergeGo_ne_empty rest "" x hx
      · rw [show mergeGo (p :: rest) buf = buf :: pyStrip p :: mergeGo rest "" from by
          simp [mergeGo, hshort, hb]]
        intro x hx
        rcases List.mem_cons.mp hx with rfl | hx
        · exact hb
        · rcases List.mem_cons.mp hx with rfl | hx
          · exact hp
          · exact mergeGo_ne_empty rest "" x hx

theorem mergeGo_chain : ∀ (parts : List String) (buf : String),
    List.Chain' (fun a b => wcS a < 4 → 4 ≤ wcS b) (mergeGo parts buf)
  | [], buf => by
    by_cases hb : buf = "" <;> simp [mergeGo, hb]
  | p :: rest, buf => by
    by_cases hshort : (pySplit p).length < 4
    · by_cases hfl : 4 ≤ (pySplit (pyStrip (buf ++ " " ++ p))).length
      · rw [show mergeGo (p :: rest) buf = pyStrip (buf ++ " " ++ p) :: mergeGo rest "" from by
          simp [mergeGo, hshort, hfl]]
        rw [List.chain'_cons']
        refine ⟨?_, mergeGo_chain rest ""⟩
        intro y _ hlt
        exact absurd hfl (by unfold wcS at hlt; omega)
      · rw [show mergeGo (p :: rest) buf = mergeGo rest (pyStrip (buf ++ " " ++ p)) from by
          simp [mergeGo, hshort, hfl]]
        exact mergeGo_chain rest _
    · have hp4 : 4 ≤ wcS (pyStrip p) := by
        unfold wcS
        rw [pySplit_pyStrip]
        omega
      by_cases hb : buf = ""
      · rw [show mergeGo (p :: rest) buf = pyStrip p :: mergeGo rest "" from by
          simp [mergeGo, hshort, hb]]
        rw [List.chain'_cons']
        refine ⟨?_, mergeGo_chain rest ""⟩
        intro y _ hlt
        omega
      · rw [show mergeGo (p :: rest) buf = buf :: pyStrip p :: mergeGo rest "" from by
          simp [mergeGo, hshort, hb]]
        rw [List.chain'_cons']
        refine ⟨?_, ?_⟩
        · intro y hy _
          simp at hy
          subst hy
          exact hp4
        · rw [List.chain'_cons']
          refine ⟨?_, mergeGo_chain rest ""⟩
          intro y _ hlt
          omega

theorem flatten_map_map (f : α → β) :
    ∀ l : List (List α), (l.map (List.map f)).flatten = l.flatten.map f
  | [] => rfl
  | a :: t => by
    rw [List.map_cons, List.flatten_cons, List.flatten_cons, List.map_append,
      flatten_map_map f t]

/-- Claim C5, counterexample: in regular mode the fragment "Hi." (1 word) is
flushed when the following 6-word sentence arrives, so a non-final returned
sentence has fewer than 4 words, contradicting the claim that only the final
sentence may be short. -/
theorem short_sentence_not_final :
    _split_into_sentences "Hi. This is a long sentence here." =
      ["Hi.", "This is a long sentence here."] ∧
    wcS "Hi." < 4 ∧ 4 ≤ wcS "This is a long sentence here." := by
  refine ⟨by decide, by decide, by decide⟩

/-- Claim C5, amended: in regular (punctuated) mode all returned sentences are
non-empty and their words cover the whole normalized input in order; a
returned sentence of fewer than 4 words is either the final one or is
immediately followed by a sentence of at least 4 words (the source also
flushes a still-short buffer when a long sentence arrives, so "at least 4
words for every non-final sentence" does not hold in general). -/
theorem regular_mode_sentences (text : String)
    (h : ¬ (countPunct (_normalize_whitespace (some text)).data <
      max 1 ((_normalize_whitespace (some text)).data.length / 1000))) :
    (∀ s ∈ _split_into_sentences text, s ≠ "") ∧
    ((_split_into_sentences text).map pySplit).flatten =
      pySplit (_normalize_whitespace (some text)) ∧
    List.Chain' (fun a b => wcS a < 4 → 4 ≤ wcS b) (_split_into_sentences text) := by
  have hsplit : _split_into_sentences text =
      (mergeGo ((splitPA false (_normalize_whitespace (some text)).data []).map
        (fun p => (⟨p⟩ : String))) "").filter (fun p => decide (p ≠ "")) := by
    unfold _split_into_sentences
    rw [if_neg h]
  set cleaned := _normalize_whitespace (some text) with hcl
  set parts := (splitPA false cleaned.data []).map (fun p => (⟨p⟩ : String)) with hparts
  have hne := mergeGo_ne_empty parts ""
  have hfilter : (mergeGo parts "").filter (fun p => decide (p ≠ "")) = mergeGo parts "" := by
    apply List.filter_eq_self.mpr
    intro a ha
    exact decide_eq_true (hne a ha)
  refine ⟨?_, ?_, ?_⟩
  · rw [hsplit, hfilter]
    exact hne
  · rw [hsplit, hfilter, mergeGo_words parts ""]
    have h0 : pySplit "" = [] := rfl
    rw [h0, List.nil_append]
    have hmapped : parts.map pySplit =
        ((splitPA false cleaned.data []).map wordsOf).map
          (List.map (fun w => (⟨w⟩ : String))) := by
      rw [hparts, List.map_map, List.map_map]
      rfl
    rw [hmapped, flatten_map_map, splitPA_words cleaned.data false []]
    have harg : ((if false = true then ([] : List Char) else ([] : List Char).reverse) ++
        cleaned.data) = cleaned.data := rfl
    rw [harg]
    rfl
  · rw [hsplit, hfilter]
    exact mergeGo_chain parts ""

theorem regular_mode_sentences_witness :
    (∀ s ∈ _split_into_sentences "Hi. This is a long sentence here.", s ≠ "") ∧
    ((_split_into_sentences "Hi. This is a long sentence here.").map pySplit).flatten =
      pySplit (_normalize_whitespace (some "Hi. This is a long sentence here.")) ∧
    List.Chain' (fun a b => wcS a < 4 → 4 ≤ wcS b)
      (_split_into_sentences "Hi. This is a long sentence here.") :=
  regular_mode_sentences "Hi. This is a long sentence here." (by decide)

/-! ### Chunk builder invariants (claim C4) -/

theorem wcS_joinSp (l : List String) : wcS (joinSp l) = (l.map wcS).sum := by
  unfold wcS
  rw [pySplit_joinSp, List.length_flatten, List.map_map]
  rfl

theorem wcS_tail_le (chunk : String) (overlap : Nat) :
    wcS (joinSp ((pySplit chunk).drop ((pySplit chunk).length - overlap))) ≤ overlap := by
  unfold wcS
  rw [pySplit_joinSp_words]
  · rw [List.length_drop]
    omega
  · intro w hw
    exact (pySplit_elems chunk w (List.mem_of_mem_drop hw)).1
  · intro w hw
    exact (pySplit_elems chunk w (List.mem_of_mem_drop hw)).2

theorem le_foldr_max : ∀ l : List Nat, ∀ x ∈ l, x ≤ l.foldr max 0
  | [] => by intro x hx; simp at hx
  | a :: t => by
    intro x hx
    rcases List.mem_cons.mp hx with rfl | hx
    · exact le_max_left _ _
    · exact le_trans (le_foldr_max t x hx) (le_max_right _ _)

theorem joinSp_contains {s : String} {l : List String} (h : s ∈ l) :
    ∃ pre post, pySplit (joinSp l) = pre ++ pySplit s ++ post := by
  rw [pySplit_joinSp]
  obtain ⟨l₁, l₂, rfl⟩ := List.append_of_mem h
  exact ⟨(l₁.map pySplit).flatten, (l₂.map pySplit).flatten, by simp⟩

theorem chunkGo_wc_bound (target overlap M : Nat) (hov : overlap ≤ target) :
    ∀ (rest current : List String) (cw : Nat),
      cw = (current.map wcS).sum →
      (∀ s ∈ rest, wcS s ≤ M) →
      (current.map wcS).sum ≤ target + M →
      ∀ c ∈ chunkGo target overlap rest current cw, wcS c ≤ target + M
  | [], current, cw, _, _, hsum, c, hc => by
    by_cases hcur : current.isEmpty
    · simp [chunkGo, hcur] at hc
    · simp [chunkGo, hcur] at hc
      subst hc
      rw [wcS_joinSp]
      exact hsum
  | sent :: rest, current, cw, hcw, hrest, hsum, c, hc => by
    have hM : wcS sent ≤ M := hrest sent (by simp)
    have hrest' : ∀ s ∈ rest, wcS s ≤ M := fun s hs => hrest s (by simp [hs])
    by_cases hcond : (decide (target < cw + wcS sent) && !current.isEmpty) = true
    · by_cases hovp : 0 < overlap
      · rw [show chunkGo target overlap (sent :: rest) current cw =
            joinSp current ::
              chunkGo target overlap rest
                [joinSp ((pySplit (joinSp current)).drop
                  ((pySplit (joinSp current)).length - overlap)), sent]
                (wcS (joinSp ((pySplit (joinSp current)).drop
                  ((pySplit (joinSp current)).length - overlap))) + wcS sent) from by
          simp [chunkGo, hcond, hovp]] at hc
        rcases List.mem_cons.mp hc with rfl | hc
        · rw [wcS_joinSp]
          exact hsum
        · refine chunkGo_wc_bound target overlap M hov rest _ _ (by simp) hrest' ?_ c hc
          have htail := wcS_tail_le (joinSp current) overlap
          simp only [List.map_cons, List.map_nil, List.sum_cons, List.sum_nil]
          omega
      · rw [show chunkGo target overlap (sent :: rest) current cw =
            joinSp current :: chunkGo target overlap rest [sent] (wcS sent) from by
          simp [chunkGo, hcond, hovp]] at hc
        rcases List.mem_cons.mp hc with rfl | hc
        · rw [wcS_joinSp]
          exact hsum
        · refine chunkGo_wc_bound target overlap M hov rest _ _ (by simp) hrest' ?_ c hc
          simp only [List.map_cons, List.map_nil, List.sum_cons, List.sum_nil]
          omega
    · rw [show chunkGo target overlap (sent :: rest) current cw =
          chunkGo target overlap rest (current ++ [sent]) (cw + wcS sent) from by
        simp [chunkGo, hcond]] at hc
      have hsum' : ((current ++ [sent]).map wcS).sum = (current.map wcS).sum + wcS sent := by
        simp
      refine chunkGo_wc_bound target overlap M hov rest _ _ (by rw [hsum', hcw]) hrest' ?_ c hc
      rw [hsum']
      have hcond' : ¬(target < cw + wcS sent) ∨ current = [] := by
        by_contra hcon
        push_neg at hcon
        rcases hcon with ⟨h1, h2⟩
        apply hcond
        cases current with
        | nil => exact absurd rfl h2
        | cons a t => simp [h1]
      rcases hcond' with hle | hemp
      · omega
      · subst hemp
        simp only [List.map_nil, List.sum_nil, Nat.zero_add]
        omega

theorem chunkGo_contains (target overlap : Nat) :
    ∀ (rest current : List String) (cw : Nat) (s : String),
      s ∈ rest ∨ s ∈ current →
      ∃ c ∈ chunkGo target overlap rest current cw,
        ∃ pre post, pySplit c = pre ++ pySplit s ++ post
  | [], current, cw, s, hmem => by
    rcases hmem with hmem | hmem
    · simp at hmem
    · have hcur : ¬ current.isEmpty := by
        cases current with
        | nil => simp at hmem
        | cons a t => simp
      refine ⟨joinSp current, ?_, joinSp_contains hmem⟩
      simp [chunkGo, hcur]
  | sent :: rest, current, cw, s, hmem => by
    by_cases hcond : (decide (target < cw + wcS sent) && !current.isEmpty) = true
    · have hemit : ∀ next ncw, chunkGo target overlap (sent :: rest) current cw =
          joinSp current :: chunkGo target overlap rest next ncw →
          (s ∈ current →
            ∃ c ∈ chunkGo target overlap (sent :: rest) current cw,
              ∃ pre post, pySplit c = pre ++ pySplit s ++ post) := by
        intro next ncw heq hs
        rw [heq]
        exact ⟨joinSp current, by simp, joinSp_contains hs⟩
      by_cases hovp : 0 < overlap
      · have heq : chunkGo target overlap (sent :: rest) current cw =
            joinSp current ::
              chunkGo target overlap rest
                [joinSp ((pySplit (joinSp current)).drop
                  ((pySplit (joinSp current)).length - overlap)), sent]
                (wcS (joinSp ((pySplit (joinSp current)).drop
                  ((pySplit (joinSp current)).length - overlap))) + wcS sent) := by
          simp [chunkGo, hcond, hovp]
        rcases hmem with hmem | hmem
        · rcases List.mem_cons.mp hmem with rfl | hmem
          · obtain ⟨c, hc, hpre⟩ := chunkGo_contains target overlap rest
              [joinSp ((pySplit (joinSp current)).drop
                ((pySplit (joinSp current)).length - overlap)), s]
              (wcS (joinSp ((pySplit (joinSp current)).drop
                ((pySplit (joinSp current)).length - overlap))) + wcS s) s
              (Or.inr (by simp))
            exact ⟨c, by rw [heq]; exact List.mem_cons_of_mem _ hc, hpre⟩
          · obtain ⟨c, hc, hpre⟩ := chunkGo_contains target overlap rest
              [joinSp ((pySplit (joinSp current)).drop
                ((pySplit (joinSp current)).length - overlap)), sent]
              (wcS (joinSp ((pySplit (joinSp current)).drop
                ((pySplit (joinSp current)).length - overlap))) + wcS sent) s
              (Or.inl hmem)
            exact ⟨c, by rw [heq]; exact List.mem_cons_of_mem _ hc, hpre⟩
        · exact hemit _ _ heq hmem
      · have heq : chunkGo target overlap (sent :: rest) current cw =
            joinSp current :: chunkGo target overlap rest [sent] (wcS sent) := by
          simp [chunkGo, hcond, hovp]
        rcases hmem with hmem | hmem
        · rcases List.mem_cons.mp hmem with rfl | hmem
          · obtain ⟨c, hc, hpre⟩ := chunkGo_contains target overlap rest [s] (wcS s) s
              (Or.inr (by simp))
            exact ⟨c, by rw [heq]; exact List.mem_cons_of_mem _ hc, hpre⟩
          · obtain ⟨c, hc, hpre⟩ := chunkGo_contains target overlap rest [sent] (wcS sent) s
              (Or.inl hmem)
            exact ⟨c, by rw [heq]; exact List.mem_cons_of_mem _ hc, hpre⟩
        · exact hemit _ _ heq hmem
    · have heq : chunkGo target overlap (sent :: rest) current cw =
          chunkGo target overlap rest (current ++ [sent]) (cw + wcS sent) := by
        simp [chunkGo, hcond]
      rw [heq]
      rcases hmem with hmem | hmem
      · rcases List.mem_cons.mp hmem with rfl | hmem
        · exact chunkGo_contains target overlap rest (current ++ [s]) (cw + wcS s) s
            (Or.inr (by simp))
        · exact chunkGo_contains target overlap rest (current ++ [sent]) (cw + wcS sent) s
            (Or.inl hmem)
      · exact chunkGo_contains target overlap rest (current ++ [sent]) (cw + wcS sent) s
          (Or.inr (by simp [hmem]))

theorem mem_chunk_by_words {sentences : List String} {target overlap : Nat} {c : String} :
    c ∈ _chunk_by_words sentences target overlap ↔
      ∃ c₀ ∈ chunkGo target overlap sentences [] 0,
        _normalize_whitespace (some c₀) ≠ "" ∧ c = _normalize_whitespace (some c₀) := by
  unfold _chunk_by_words
  rw [List.mem_filterMap]
  constructor
  · rintro ⟨a, ha, hfa⟩
    dsimp only at hfa
    by_cases hn : _normalize_whitespace (some a) = ""
    · rw [if_pos hn] at hfa
      exact absurd hfa (by simp)
    · rw [if_neg hn] at hfa
      exact ⟨a, ha, hn, (Option.some.injEq _ _ ▸ hfa).symm⟩
  · rintro ⟨c₀, hc₀, hn, rfl⟩
    exact ⟨c₀, hc₀, by simp [hn]⟩

/-- Claim C4: with `0 ≤ overlap_words < target_chunk_words`, every chunk's
word count exceeds the target by at most the largest input sentence's word
count, no sentence's word sequence is split across chunks (each sentence's
words occur contiguously inside some chunk), the final partial chunk is
emitted (the output is non-empty whenever some sentence has words), and
whitespace-only chunks are dropped. -/
theorem chunk_builder_invariants (sentences : List String) (target overlap : Nat)
    (hov : overlap < target) :
    (∀ c ∈ _chunk_by_words sentences target overlap,
      wcS c ≤ target + ((sentences.map wcS).foldr max 0)) ∧
    (∀ s ∈ sentences, pySplit s = [] ∨
      ∃ c ∈ _chunk_by_words sentences target overlap,
        ∃ pre post, pySplit c = pre ++ pySplit s ++ post) ∧
    ((sentences ≠ [] ∧ ∀ s ∈ sentences, pySplit s ≠ []) →
      _chunk_by_words sentences target overlap ≠ []) ∧
    (∀ c ∈ _chunk_by_words sentences target overlap, c ≠ "" ∧ pySplit c ≠ []) := by
  have hM : ∀ s ∈ sentences, wcS s ≤ (sentences.map wcS).foldr max 0 := fun s hs =>
    le_foldr_max _ _ (List.mem_map_of_mem wcS hs)
  have hbound := chunkGo_wc_bound target overlap ((sentences.map wcS).foldr max 0)
    (le_of_lt hov) sentences [] 0 rfl hM (by simp)
  have hpart2 : ∀ s ∈ sentences, pySplit s = [] ∨
      ∃ c ∈ _chunk_by_words sentences target overlap,
        ∃ pre post, pySplit c = pre ++ pySplit s ++ post := by
    intro s hs
    by_cases hw : pySplit s = []
    · exact Or.inl hw
    · right
      obtain ⟨c₀, hc₀, pre, post, hsplit⟩ :=
        chunkGo_contains target overlap sentences [] 0 s (Or.inl hs)
    -- the chunk holding s has words, hence survives normalization
      have hc₀w : pySplit c₀ ≠ [] := by
        rw [hsplit]
        intro hcon
        rcases List.append_eq_nil.mp hcon with ⟨h1, _⟩
        exact hw (List.append_eq_nil.mp h1).2
      have hnz : _normalize_whitespace (some c₀) ≠ "" := by
        intro hcon
        apply hc₀w
        rw [← pySplit_normalize c₀, hcon]
        rfl
      refine ⟨_normalize_whitespace (some c₀),
        mem_chunk_by_words.mpr ⟨c₀, hc₀, hnz, rfl⟩, pre, post, ?_⟩
      rw [pySplit_normalize c₀, hsplit]
  refine ⟨?_, hpart2, ?_, ?_⟩
  · intro c hc
    obtain ⟨c₀, hc₀, hnz, rfl⟩ := mem_chunk_by_words.mp hc
    have heq : wcS (_normalize_whitespace (some c₀)) = wcS c₀ := by
      unfold wcS
      rw [pySplit_normalize]
    rw [heq]
    exact hbound c₀ hc₀
  · rintro ⟨hne, hwords⟩
    obtain ⟨s₀, hs₀⟩ : ∃ s₀, s₀ ∈ sentences := by
      cases sentences with
      | nil => exact absurd rfl hne
      | cons a t => exact ⟨a, by simp⟩
    rcases hpart2 s₀ hs₀ with hnil | ⟨c, hc, _⟩
    · exact absurd hnil (hwords s₀ hs₀)
    · intro hcon
      rw [hcon] at hc
      simp at hc
  · intro c hc
    obtain ⟨c₀, hc₀, hnz, rfl⟩ := mem_chunk_by_words.mp hc
    refine ⟨hnz, ?_⟩
    intro hcon
    exact hnz (normalize_eq_empty_of_words_nil c₀ hcon)

theorem chunk_builder_invariants_witness :
    (∀ c ∈ _chunk_by_words ["a b c d e", "f g h", "i j k l"] 6 2,
      wcS c ≤ 6 + ((["a b c d e", "f g h", "i j k l"].map wcS).foldr max 0)) ∧
    (∀ s ∈ ["a b c d e", "f g h", "i j k l"], pySplit s = [] ∨
      ∃ c ∈ _chunk_by_words ["a b c d e", "f g h", "i j k l"] 6 2,
        ∃ pre post, pySplit c = pre ++ pySplit s ++ post) ∧
    ((["a b c d e", "f g h", "i j k l"] ≠ ([] : List String) ∧
        ∀ s ∈ ["a b c d e", "f g h", "i j k l"], pySplit s ≠ []) →
      _chunk_by_words ["a b c d e", "f g h", "i j k l"] 6 2 ≠ []) ∧
    (∀ c ∈ _chunk_by_words ["a b c d e", "f g h", "i j k l"] 6 2, c ≠ "" ∧ pySplit c ≠ []) :=
  chunk_builder_invariants ["a b c d e", "f g h", "i j k l"] 6 2 (by norm_num)

/-! ### Python dict lemmas for the client claims -/

theorem pyGet_append_single : ∀ (o : ObjT) (key k₂ : String) (v : JsonVal),
    pyGet (o ++ [(key, v)]) k₂ =
      match pyGet o k₂ with
      | some w => some w
      | none => if key = k₂ then some v else none
  | [], key, k₂, v => by simp [pyGet]
  | (a, w) :: rest, key, k₂, v => by
    by_cases ha : a = k₂
    · simp [pyGet, ha]
    · simp only [List.cons_append, pyGet, if_neg ha]
      exact pyGet_append_single rest key k₂ v

theorem setdefault_of_mem {o : ObjT} {key : String} {w : JsonVal} (v : JsonVal)
    (h : pyGet o key = some w) : setdefault o key v = o := by
  unfold setdefault
  rw [h]

theorem pyGet_setdefault_self (o : ObjT) (key : String) (v : JsonVal) :
    pyGet (setdefault o key v) key = some ((pyGet o key).getD v) := by
  unfold setdefault
  cases h : pyGet o key with
  | some w => simp [h]
  | none => rw [pyGet_append_single, h, if_pos rfl]; rfl

theorem pyGet_setdefault_ne {key k₂ : String} (o : ObjT) (v : JsonVal) (h : key ≠ k₂) :
    pyGet (setdefault o key v) k₂ = pyGet o k₂ := by
  unfold setdefault
  cases ho : pyGet o key with
  | some w => rfl
  | none =>
    rw [pyGet_append_single, if_neg h]
    cases pyGet o k₂ <;> rfl

theorem pyGet_dictInsert_self : ∀ (o : ObjT) (key : String) (v : JsonVal),
    pyGet (dictInsert o key v) key = some v
  | [], key, v => by simp [dictInsert, pyGet]
  | (a, w) :: rest, key, v => by
    by_cases ha : a = key
    · simp [dictInsert, ha, pyGet]
    · simp only [dictInsert, if_neg ha, pyGet]
      exact pyGet_dictInsert_self rest key v

theorem pyGet_dictInsert_ne {key k₂ : String} (h : key ≠ k₂) :
    ∀ (o : ObjT) (v : JsonVal), pyGet (dictInsert o key v) k₂ = pyGet o k₂
  | [], v => by simp [dictInsert, pyGet, h]
  | (a, w) :: rest, v => by
    by_cases ha : a = key
    · subst ha
      simp [dictInsert, pyGet, h]
    · simp only [dictInsert, if_neg ha, pyGet]
      by_cases ha2 : a = k₂
      · simp [ha2]
      · rw [if_neg ha2, if_neg ha2]
        exact pyGet_dictInsert_ne h rest v

/-- Does an optional JSON value hold a list whose length is the requested
(integer) takeaway count? -/
def isArrLenInt (k : Int) : Option JsonVal → Bool
  | some (JsonVal.arr xs) => decide ((xs.length : Int) = k)
  | _ => false

/-! ### Claim C9: single-quote repair chain of `_extract_json` -/

/-- Claim C9: on the single-quoted, JSON-invalid payload the extraction
succeeds through the fallback chain — fence stripping is the identity, the
direct parse fails, the whole text is the first brace-delimited block, its
parse fails, and the quote-repaired block parses — while an input on which
every stage fails yields an error instead of a result. -/
theorem single_quote_repair :
    pyStripChars (subFence (pyStripChars (subFenceJson
        (pyStripChars "\x7b'summary': 'x', 'key_takeaways': []\x7d".data)))) =
      "\x7b'summary': 'x', 'key_takeaways': []\x7d".data ∧
    loadsChars "\x7b'summary': 'x', 'key_takeaways': []\x7d".data = none ∧
    braceBlock "\x7b'summary': 'x', 'key_takeaways': []\x7d".data =
      some "\x7b'summary': 'x', 'key_takeaways': []\x7d".data ∧
    loadsChars (repairQuotes none "\x7b'summary': 'x', 'key_takeaways': []\x7d".data) =
      some (JsonVal.obj [("summary", JsonVal.str "x"), ("key_takeaways", JsonVal.arr [])]) ∧
    _extract_json "\x7b'summary': 'x', 'key_takeaways': []\x7d" =
      .ok (JsonVal.obj [("summary", JsonVal.str "x"), ("key_takeaways", JsonVal.arr [])]) ∧
    _extract_json "\x7b'a': don't\x7d" = .error "json.JSONDecodeError" :=
  ⟨rfl, rfl, rfl, rfl, rfl, rfl⟩

/-! ### Claim C1: takeaway-count validation of `generate_sections` -/

/-- Claim C1, counterexample: with requested count 0 and a first response whose
`key_takeaways` is the string "oops", the local normalization makes the count
comparison succeed (`len([]) == 0`), so no retry happens and the non-list
value is returned unchanged — the returned `key_takeaways` is not a list of
length 0, refuting the claim for `k = 0`. -/
theorem takeaways_nonlist_returned :
    generate_sections
        (fun _ => some "\x7b\"summary\": \"s\", \"key_takeaways\": \"oops\"\x7d") (some 0) =
      .ok [("summary", JsonVal.str "s"), ("key_takeaways", JsonVal.str "oops")] ∧
    isArrLenInt 0 (pyGet [("summary", JsonVal.str "s"), ("key_takeaways", JsonVal.str "oops")]
      "key_takeaways") = false :=
  ⟨rfl, rfl⟩


/-- Claim C1, amended: for every requested count `k >= 1` a successful
`generate_sections` returns a `key_takeaways` list of length exactly `k`
(first response kept when already of length `k`, else one retry followed by
local padding with empty strings or truncation).  For `k = 0` the same holds
provided the first response's `key_takeaways` is absent or a list; a present
non-null non-list value is returned unchanged (see the counterexample), which
is the one case the original claim gets wrong. -/
theorem takeaways_count_guarantee (responses : Nat → Option String) (k : Int) (data : ObjT)
    (hres : generate_sections responses (some k) = .ok data) :
    (1 ≤ k → isArrLenInt k (pyGet data "key_takeaways") = true) ∧
    (k = 0 → ∀ o₀, _call responses 0 = .ok o₀ →
      (match pyGet o₀ "key_takeaways" with
        | none => True
        | some (JsonVal.arr _) => True
        | _ => False) →
      isArrLenInt 0 (pyGet data "key_takeaways") = true) := by
  constructor
  · intro hk
    cases h0 : _call responses 0 with
    | error e =>
      simp only [generate_sections, h0] at hres
      simp at hres
    | ok o₀ =>
      simp only [generate_sections, h0] at hres
      rw [if_pos (by omega : (0:Int) ≤ k)] at hres
      by_cases hlen : ((asList (pyGet o₀ "key_takeaways")).length : Int) = k
      · rw [if_pos hlen] at hres
        have hdata : setdefault (setdefault o₀ "summary" (.str "")) "key_takeaways" (.arr []) =
            data := Except.ok.inj hres
        subst hdata
        cases hkt : pyGet o₀ "key_takeaways" with
        | none =>
          rw [hkt] at hlen
          simp [asList] at hlen
          omega
        | some v =>
          cases v with
          | arr xs =>
            rw [pyGet_setdefault_self,
              pyGet_setdefault_ne _ _ (by decide : "summary" ≠ "key_takeaways"), hkt]
            rw [hkt] at hlen
            simp only [asList] at hlen
            simp [isArrLenInt, hlen]
          | null =>
            rw [hkt] at hlen; simp [asList] at hlen; omega
          | bool b =>
            rw [hkt] at hlen; simp [asList] at hlen; omega
          | num s =>
            rw [hkt] at hlen; simp [asList] at hlen; omega
          | str s =>
            rw [hkt] at hlen; simp [asList] at hlen; omega
          | obj o =>
            rw [hkt] at hlen; simp [asList] at hlen; omega
      · rw [if_neg hlen] at hres
        cases h1 : _call responses 1 with
        | error e =>
          rw [h1] at hres
          simp at hres
        | ok o₁ =>
          rw [h1] at hres
          have hdata : setdefault (setdefault
              (dictInsert o₁ "key_takeaways" (JsonVal.arr
                (if ((asList (pyGet o₁ "key_takeaways")).length : Int) < k then
                  asList (pyGet o₁ "key_takeaways") ++
                    List.replicate (k - (asList (pyGet o₁ "key_takeaways")).length).toNat
                      (JsonVal.str "")
                else (asList (pyGet o₁ "key_takeaways")).take k.toNat)))
              "summary" (.str "")) "key_takeaways" (.arr []) = data := Except.ok.inj hres
          subst hdata
          rw [pyGet_setdefault_self,
            pyGet_setdefault_ne _ _ (by decide : "summary" ≠ "key_takeaways"),
            pyGet_dictInsert_self]
          by_cases hl2 : ((asList (pyGet o₁ "key_takeaways")).length : Int) < k
          · rw [if_pos hl2]
            simp [isArrLenInt]
            omega
          · rw [if_neg hl2]
            simp [isArrLenInt, List.length_take]
            omega
  · rintro rfl o₀ h0 hshape
    simp only [generate_sections, h0] at hres
    rw [if_pos (le_refl (0 : Int))] at hres
    cases hkt : pyGet o₀ "key_takeaways" with
    | none =>
      rw [hkt] at hres
      rw [if_pos (by simp [asList])] at hres
      have hdata : setdefault (setdefault o₀ "summary" (.str "")) "key_takeaways" (.arr []) =
          data := Except.ok.inj hres
      subst hdata
      rw [pyGet_setdefault_self,
        pyGet_setdefault_ne _ _ (by decide : "summary" ≠ "key_takeaways"), hkt]
      simp [isArrLenInt]
    | some v =>
      cases v with
      | arr xs =>
        rw [hkt] at hres
        simp only [show asList (some (JsonVal.arr xs)) = xs from rfl] at hres
        by_cases hx : ((xs.length : Int) = 0)
        · have hxe : xs = [] := List.length_eq_zero.mp (by exact_mod_cast hx)
          subst hxe
          rw [if_pos (by simp)] at hres
          have hdata : setdefault (setdefault o₀ "summary" (.str "")) "key_takeaways"
              (.arr []) = data := Except.ok.inj hres
          subst hdata
          rw [pyGet_setdefault_self,
            pyGet_setdefault_ne _ _ (by decide : "summary" ≠ "key_takeaways"), hkt]
          simp [isArrLenInt]
        · rw [if_neg hx] at hres
          cases h1 : _call responses 1 with
          | error e =>
            rw [h1] at hres
            simp at hres
          | ok o₁ =>
            rw [h1] at hres
            have hdata : setdefault (setdefault
                (dictInsert o₁ "key_takeaways" (JsonVal.arr
                  (if ((asList (pyGet o₁ "key_takeaways")).length : Int) < 0 then
                    asList (pyGet o₁ "key_takeaways") ++
                      List.replicate ((0 : Int) - (asList (pyGet o₁ "key_takeaways")).length).toNat
                        (JsonVal.str "")
                  else (asList (pyGet o₁ "key_takeaways")).take (0 : Int).toNat)))
                "summary" (.str "")) "key_takeaways" (.arr []) = data := Except.ok.inj hres
            subst hdata
            rw [pyGet_setdefault_self,
              pyGet_setdefault_ne _ _ (by decide : "summary" ≠ "key_takeaways"),
              pyGet_dictInsert_self]
            rw [if_neg (by omega)]
            simp [isArrLenInt]
      | null => rw [hkt] at hshape; simp at hshape
      | bool b => rw [hkt] at hshape; simp at hshape
      | num s => rw [hkt] at hshape; simp at hshape
      | str s => rw [hkt] at hshape; simp at hshape
      | obj o => rw [hkt] at hshape; simp at hshape

theorem takeaways_count_guarantee_witness :
    isArrLenInt 2 (pyGet [("summary", JsonVal.str "s"),
      ("key_takeaways", JsonVal.arr [JsonVal.str "a", JsonVal.str "b"])] "key_takeaways") =
      true :=
  (takeaways_count_guarantee
    (fun _ => some "\x7b\"summary\": \"s\", \"key_takeaways\": [\"a\", \"b\"]\x7d") 2
    [("summary", JsonVal.str "s"),
      ("key_takeaways", JsonVal.arr [JsonVal.str "a", JsonVal.str "b"])]
    (by rfl)).1 (by norm_num)

/-! ### Suffix structure of the JSON parser (towards claim C8) -/

theorem skipWs_eq_dropWhile : ∀ cs : List Char, skipWs cs = cs.dropWhile jsonWsB
  | [] => rfl
  | c :: cs => by
    by_cases h : jsonWsB c
    · simp [skipWs, h, List.dropWhile_cons, skipWs_eq_dropWhile cs]
    · simp [skipWs, h, List.dropWhile_cons]

theorem skipWs_suffix (cs : List Char) : skipWs cs <:+ cs := by
  rw [skipWs_eq_dropWhile]
  exact List.dropWhile_suffix _

theorem hex4_suffix : ∀ {cs rest : List Char} {u : Nat},
    hex4? cs = some (u, rest) → rest <:+ cs := by
  intro cs rest u h
  match cs with
  | [] => simp [hex4?] at h
  | [a] => simp [hex4?] at h
  | [a, b] => simp [hex4?] at h
  | [a, b, c] => simp [hex4?] at h
  | a :: b :: c :: d :: rest' =>
    simp only [hex4?] at h
    split at h
    · cases h
      exact ⟨[a, b, c, d], rfl⟩
    · cases h

theorem parseStringRest_suffix : ∀ (f : Nat) (acc cs : List Char) (s : String)
    (rest : List Char), parseStringRest f acc cs = some (s, rest) → rest <:+ cs
  | 0, acc, cs, s, rest, h => by simp [parseStringRest] at h
  | f + 1, acc, [], s, rest, h => by simp [parseStringRest] at h
  | f + 1, acc, c :: cs, s, rest, h => by
    simp only [parseStringRest] at h
    split at h
    · cases h
      exact ⟨[c], rfl⟩
    · split at h
      · split at h
        · cases h
        · rename_i e cs2
          split at h
          · split at h
            · cases h
            · rename_i u cs3 heq3
              split at h
              · split at h
                · rename_i cs4
                  split at h
                  · rename_i u2 cs5 heq5
                    split at h
                    · have h1 := parseStringRest_suffix f _ cs5 s rest h
                      refine h1.trans (List.IsSuffix.trans (hex4_suffix heq5) ?_)
                      refine List.IsSuffix.trans ⟨['\\', 'u'], rfl⟩ ?_
                      exact List.IsSuffix.trans (hex4_suffix heq3) ⟨[c, e], rfl⟩
                    · cases h
                  · cases h
                · cases h
              · split at h
                · cases h
                · have h1 := parseStringRest_suffix f _ cs3 s rest h
                  exact h1.trans (List.IsSuffix.trans (hex4_suffix heq3) ⟨[c, e], rfl⟩)
          · split at h
            · have h1 := parseStringRest_suffix f _ cs2 s rest h
              exact h1.trans ⟨[c, e], rfl⟩
            · cases h
      · split at h
        · cases h
        · have h1 := parseStringRest_suffix f _ cs s rest h
          exact h1.trans ⟨[c], rfl⟩

theorem fracPart_suffix : ∀ (cs : List Char), (fracPart cs).2 <:+ cs := by
  intro cs
  match cs with
  | [] => exact List.suffix_rfl
  | c :: cs' =>
    by_cases hc : c = '.'
    · subst hc
      simp only [fracPart]
      split
      · exact List.suffix_rfl
      · exact (List.dropWhile_suffix _).trans ⟨['.'], rfl⟩
    · have heq : fracPart (c :: cs') = ([], c :: cs') := by
        unfold fracPart
        split
        · simp_all
        · rfl
      rw [heq]

theorem expPart_suffix : ∀ (cs : List Char), (expPart cs).2 <:+ cs := by
  intro cs
  match cs with
  | [] => exact List.suffix_rfl
  | c :: r =>
    simp only [expPart]
    split
    · split
      · exact List.suffix_rfl
      · rename_i s r2
        split
        · split
          · exact List.suffix_rfl
          · exact (List.dropWhile_suffix _).trans ⟨[c, s], rfl⟩
        · split
          · exact List.suffix_rfl
          · exact (List.dropWhile_suffix _).trans ⟨[c], rfl⟩
    · exact List.suffix_rfl

theorem parseNumCore_suffix : ∀ (sgn cs1 : List Char) {lex : String} {rest : List Char},
    parseNumCore sgn cs1 = some (lex, rest) → rest <:+ cs1 := by
  intro sgn cs1 lex rest h
  match cs1 with
  | [] => simp [parseNumCore] at h
  | c :: r =>
    simp only [parseNumCore] at h
    split at h
    · cases h
    · rename_i ip rest1 heq1
      have hrest : rest = (expPart ((fracPart rest1).2)).2 := by
        cases h
        rfl
      have hrest1 : rest1 <:+ c :: r := by
        split at heq1
        · cases heq1
          exact ⟨[c], rfl⟩
        · split at heq1
          · cases heq1
            exact List.dropWhile_suffix _
          · cases heq1
      rw [hrest]
      exact (expPart_suffix _).trans ((fracPart_suffix _).trans hrest1)

theorem parseNumber_suffix {cs rest : List Char} {lex : String}
    (h : parseNumber cs = some (lex, rest)) : rest <:+ cs := by
  unfold parseNumber at h
  split at h
  · refine (parseNumCore_suffix _ _ h).trans ?_
    cases cs with
    | nil => exact List.suffix_rfl
    | cons a t => exact ⟨[a], rfl⟩
  · exact parseNumCore_suffix _ _ h

theorem stripLit_suffix {lit cs rest : List Char} (h : stripLit lit cs = some rest) :
    rest <:+ cs := by
  unfold stripLit at h
  split at h
  · cases h
    exact ⟨cs.take lit.length, List.take_append_drop _ _⟩
  · cases h

theorem suffix_drop_head {a : α} {l m : List α} (h : (a :: l) <:+ m) : l <:+ m :=
  (List.suffix_cons a l).trans h

theorem parse_suffix : ∀ f : Nat,
    (∀ cs v rest, parseValue f cs = some (v, rest) → rest <:+ cs) ∧
    (∀ cs acc v rest, parseMembers f cs acc = some (v, rest) → '}' :: rest <:+ cs) ∧
    (∀ cs acc v rest, parseElements f cs acc = some (v, rest) → ']' :: rest <:+ cs) := by
  intro f
  induction f with
  | zero =>
    refine ⟨?_, ?_, ?_⟩
    · intro cs v rest h
      simp [parseValue] at h
    · intro cs acc v rest h
      simp [parseMembers] at h
    · intro cs acc v rest h
      simp [parseElements] at h
  | succ f ih =>
    obtain ⟨ihv, ihm, ihe⟩ := ih
    refine ⟨?_, ?_, ?_⟩
    · intro cs v rest h
      match cs with
      | [] => simp [parseValue] at h
      | c :: cs' =>
        simp only [parseValue] at h
        split at h
        · -- c = '"' : string
          split at h
          · rename_i heq
            cases h
            exact (parseStringRest_suffix f [] cs' _ _ heq).trans ⟨[c], rfl⟩
          · cases h
        · split at h
          · -- c = '{' : object
            split at h
            · rename_i heq
              cases h
              refine suffix_drop_head (a := '}') ?_
              rw [← heq]
              exact (skipWs_suffix cs').trans ⟨[c], rfl⟩
            · have h2 := ihm _ _ _ _ h
              exact suffix_drop_head
                ((h2.trans (skipWs_suffix cs')).trans ⟨[c], rfl⟩)
          · split at h
            · -- c = '[' : array
              split at h
              · rename_i heq
                cases h
                refine suffix_drop_head (a := ']') ?_
                rw [← heq]
                exact (skipWs_suffix cs').trans ⟨[c], rfl⟩
              · have h2 := ihe _ _ _ _ h
                exact suffix_drop_head
                  ((h2.trans (skipWs_suffix cs')).trans ⟨[c], rfl⟩)
            · split at h
              · -- null
                split at h
                · rename_i heq
                  cases h
                  exact (stripLit_suffix heq).trans ⟨[c], rfl⟩
                · cases h
              · split at h
                · -- true
                  split at h
                  · rename_i heq
                    cases h
                    exact (stripLit_suffix heq).trans ⟨[c], rfl⟩
                  · cases h
                · split at h
                  · -- false
                    split at h
                    · rename_i heq
                      cases h
                      exact (stripLit_suffix heq).trans ⟨[c], rfl⟩
                    · cases h
                  · split at h
                    · -- NaN
                      split at h
                      · rename_i heq
                        cases h
                        exact (stripLit_suffix heq).trans ⟨[c], rfl⟩
                      · cases h
                    · split at h
                      · -- Infinity
                        split at h
                        · rename_i heq
                          cases h
                          exact (stripLit_suffix heq).trans ⟨[c], rfl⟩
                        · cases h
                      · split at h
                        · -- -Infinity
                          cases h
                          exact (List.drop_suffix 8 cs').trans ⟨[c], rfl⟩
                        · -- number
                          split at h
                          · rename_i heq
                            cases h
                            exact parseNumber_suffix heq
                          · cases h
    · intro cs acc v rest h
      match cs with
      | [] => simp [parseMembers] at h
      | c :: cs' =>
        simp only [parseMembers] at h
        split at h
        · split at h
          · exact Option.noConfusion h
          · rename_i key r1 heqs
            split at h
            · rename_i r2 heq2
              split at h
              · exact Option.noConfusion h
              · rename_i r3 heqv
                split at h
                · -- ',' : next member
                  rename_i r4 heq3
                  have s1 := ihm _ _ _ _ h
                  have s3 : r4 <:+ skipWs r3 := by
                    rw [heq3]
                    exact List.suffix_cons ',' r4
                  have s7 : r2 <:+ skipWs r1 := by
                    rw [heq2]
                    exact List.suffix_cons ':' r2
                  have t1 := (s1.trans (skipWs_suffix r4)).trans s3
                  have t2 := (t1.trans (skipWs_suffix r3)).trans (ihv _ _ _ heqv)
                  have t3 := (t2.trans (skipWs_suffix r2)).trans s7
                  have t4 := (t3.trans (skipWs_suffix r1)).trans
                    (parseStringRest_suffix f [] cs' _ _ heqs)
                  exact t4.trans (List.suffix_cons c cs')
                · -- '}' : end of object
                  rename_i r4 heq3
                  cases h
                  have s3 : '}' :: rest <:+ skipWs r3 := by rw [heq3]
                  have s7 : r2 <:+ skipWs r1 := by
                    rw [heq2]
                    exact List.suffix_cons ':' r2
                  have t2 := (s3.trans (skipWs_suffix r3)).trans (ihv _ _ _ heqv)
                  have t3 := (t2.trans (skipWs_suffix r2)).trans s7
                  have t4 := (t3.trans (skipWs_suffix r1)).trans
                    (parseStringRest_suffix f [] cs' _ _ heqs)
                  exact t4.trans (List.suffix_cons c cs')
                · exact Option.noConfusion h
            · exact Option.noConfusion h
        · exact Option.noConfusion h
    · intro cs acc v rest h
      simp only [parseElements] at h
      split at h
      · exact Option.noConfusion h
      · rename_i v1 r1 heqv
        split at h
        · -- ',' : next element
          rename_i r2 heq2
          have s1 := ihe _ _ _ _ h
          have s3 : r2 <:+ skipWs r1 := by
            rw [heq2]
            exact List.suffix_cons ',' r2
          have t1 := (s1.trans (skipWs_suffix r2)).trans s3
          exact (t1.trans (skipWs_suffix r1)).trans (ihv _ _ _ heqv)
        · -- ']' : end of array
          rename_i r2 heq2
          cases h
          have s3 : ']' :: rest <:+ skipWs r1 := by rw [heq2]
          exact (s3.trans (skipWs_suffix r1)).trans (ihv _ _ _ heqv)
        · exact Option.noConfusion h

/-! ### Object shape of a successful `json.loads` (towards claim C8) -/

theorem pyWs_of_jsonWs {c : Char} (h : jsonWsB c = true) : pyWsB c = true := by
  unfold jsonWsB at h
  unfold pyWsB
  simp only [Bool.or_eq_true, decide_eq_true_eq] at h ⊢
  tauto

theorem skipWs_nil_all_ws {rest : List Char} (h : skipWs rest = []) :
    ∀ c ∈ rest, jsonWsB c = true := by
  rw [skipWs_eq_dropWhile] at h
  exact List.dropWhile_eq_nil_iff.mp h

theorem parseElements_arr : ∀ (f : Nat) (cs : List Char) (acc : List JsonVal) (v : JsonVal)
    (rest : List Char), parseElements f cs acc = some (v, rest) → ∃ xs, v = JsonVal.arr xs
  | 0, cs, acc, v, rest, h => by simp [parseElements] at h
  | f + 1, cs, acc, v, rest, h => by
    simp only [parseElements] at h
    split at h
    · exact Option.noConfusion h
    · split at h
      · exact parseElements_arr f _ _ _ _ h
      · cases h
        exact ⟨_, rfl⟩
      · exact Option.noConfusion h

theorem parseValue_obj_head {f : Nat} {cs rest : List Char} {o : List (String × JsonVal)}
    (h : parseValue f cs = some (JsonVal.obj o, rest)) :
    ∃ cs', cs = '{' :: cs' ∧ '}' :: rest <:+ cs' := by
  match f, cs with
  | 0, cs => simp [parseValue] at h
  | f + 1, [] => simp [parseValue] at h
  | f + 1, c :: cs' =>
    simp only [parseValue] at h
    split at h
    · -- string
      split at h
      · cases h
      · exact Option.noConfusion h
    · split at h
      · -- object
        rename_i hq hc
        subst hc
        refine ⟨cs', rfl, ?_⟩
        split at h
        · rename_i heq
          cases h
          rw [← heq]
          exact skipWs_suffix cs'
        · exact ((parse_suffix f).2.1 _ _ _ _ h).trans (skipWs_suffix cs')
      · split at h
        · -- array
          split at h
          · cases h
          · obtain ⟨xs, hxs⟩ := parseElements_arr f _ _ _ _ h
            exact absurd hxs (by simp)
        · split at h
          · split at h
            · cases h
            · exact Option.noConfusion h
          · split at h
            · split at h
              · cases h
              · exact Option.noConfusion h
            · split at h
              · split at h
                · cases h
                · exact Option.noConfusion h
              · split at h
                · split at h
                  · cases h
                  · exact Option.noConfusion h
                · split at h
                  · split at h
                    · cases h
                    · exact Option.noConfusion h
                  · split at h
                    · cases h
                    · split at h
                      · cases h
                      · exact Option.noConfusion h

theorem loads_obj_shape {cs : List Char} {o : List (String × JsonVal)}
    (h : loadsChars cs = some (JsonVal.obj o)) :
    ∃ w1 mid w2, cs = w1 ++ ('{' :: (mid ++ ['}'])) ++ w2 ∧
      (∀ c ∈ w1, jsonWsB c = true) ∧ (∀ c ∈ w2, jsonWsB c = true) := by
  unfold loadsChars at h
  split at h
  · rename_i v rest heqv
    split at h
    · rename_i hemp
      cases h
      obtain ⟨cs1', h1, hsuf⟩ := parseValue_obj_head heqv
      obtain ⟨mid, hmid⟩ := hsuf
      have hdecomp : cs = cs.takeWhile jsonWsB ++ skipWs cs := by
        rw [skipWs_eq_dropWhile]
        exact (List.takeWhile_append_dropWhile jsonWsB cs).symm
      refine ⟨cs.takeWhile jsonWsB, mid, rest, ?_, ?_, ?_⟩
      · calc cs = cs.takeWhile jsonWsB ++ skipWs cs := hdecomp
          _ = cs.takeWhile jsonWsB ++ ('{' :: cs1') := by rw [h1]
          _ = cs.takeWhile jsonWsB ++ ('{' :: (mid ++ ['}'])) ++ rest := by
              rw [← hmid]
              simp
      · intro c hc
        exact List.mem_takeWhile_imp hc
      · rw [List.isEmpty_iff] at hemp
        exact skipWs_nil_all_ws hemp
    · exact Option.noConfusion h
  · exact Option.noConfusion h

theorem fence3_eq : fence3 = ['\x60', '\x60', '\x60'] := rfl

theorem fence3_rev : fence3.reverse = fence3 := rfl

theorem pyStripChars_sandwich (w1 m w2 : List Char) (a b : Char)
    (hw1 : ∀ c ∈ w1, pyWsB c = true) (hw2 : ∀ c ∈ w2, pyWsB c = true)
    (ha : pyWsB a = false) (hb : pyWsB b = false) :
    pyStripChars (w1 ++ (a :: (m ++ [b])) ++ w2) = a :: (m ++ [b]) := by
  unfold pyStripChars
  rw [List.append_assoc, List.dropWhile_append_of_pos hw1, List.cons_append,
    List.dropWhile_cons_of_neg (by simp [ha])]
  have hrd : List.dropWhile pyWsB (a :: ((m ++ [b]) ++ w2)).reverse = b :: (m.reverse ++ [a]) := by
    have hrev : (a :: ((m ++ [b]) ++ w2)).reverse = w2.reverse ++ ((b :: m.reverse) ++ [a]) := by
      simp
    rw [hrev, List.dropWhile_append_of_pos (fun c hc => hw2 c (List.mem_reverse.mp hc)),
      List.cons_append, List.dropWhile_cons_of_neg (by simp [hb])]
  rw [hrd]
  simp

theorem fenceJsonAtStart_lbrace (Y : List Char) : fenceJsonAtStart ('{' :: Y) = false := by
  unfold fenceJsonAtStart
  have h1 : decide (('{' :: Y).take 3 = fence3) = false := by
    apply decide_eq_false
    intro hcon
    rw [show ('{' :: Y).take 3 = '{' :: Y.take 2 from rfl, fence3_eq] at hcon
    exact absurd (List.cons.inj hcon).1 (by decide)
  rw [h1, Bool.false_and]

theorem fenceAtStart_lbrace (Y : List Char) : fenceAtStart ('{' :: Y) = false := by
  unfold fenceAtStart
  apply decide_eq_false
  intro hcon
  rw [show ('{' :: Y).take 3 = '{' :: Y.take 2 from rfl, fence3_eq] at hcon
  exact absurd (List.cons.inj hcon).1 (by decide)

theorem stripTrailFence_rbrace (X : List Char) :
    stripTrailFence (X ++ ['}']) = X ++ ['}'] := by
  unfold stripTrailFence
  have hrev : (X ++ ['}']).reverse = '}' :: X.reverse := by simp
  have hc : ¬ ((X ++ ['}']).reverse.take 3 = fence3) := by
    rw [hrev]
    intro hcon
    rw [show ('}' :: X.reverse).take 3 = '}' :: X.reverse.take 2 from rfl, fence3_eq] at hcon
    exact absurd (List.cons.inj hcon).1 (by decide)
  rw [if_neg hc]

theorem stripTrailFence_ws_fence (X w : List Char) (b : Char)
    (hw : ∀ c ∈ w, pyWsB c = true) (hb : pyWsB b = false) :
    stripTrailFence (X ++ [b] ++ w ++ fence3) = X ++ [b] := by
  unfold stripTrailFence
  have hrev : (X ++ [b] ++ w ++ fence3).reverse = fence3 ++ (w.reverse ++ (b :: X.reverse)) := by
    rw [fence3_eq]
    simp
  rw [hrev]
  rw [if_pos (by rw [fence3_eq]; rfl)]
  have hdrop : (fence3 ++ (w.reverse ++ (b :: X.reverse))).drop 3 =
      w.reverse ++ (b :: X.reverse) := by
    rw [fence3_eq]
    rfl
  rw [hdrop, List.dropWhile_append_of_pos (fun c hc => hw c (List.mem_reverse.mp hc)),
    List.dropWhile_cons_of_neg (by simp [hb])]
  simp

theorem pyStripChars_core (mid : List Char) :
    pyStripChars ('{' :: (mid ++ ['}'])) = '{' :: (mid ++ ['}']) := by
  simpa using pyStripChars_sandwich [] mid [] '{' '}' (by simp) (by simp) (by decide) (by decide)

theorem subFenceJson_core (mid : List Char) :
    subFenceJson ('{' :: (mid ++ ['}'])) = '{' :: (mid ++ ['}']) := by
  unfold subFenceJson
  rw [fenceJsonAtStart_lbrace, if_neg (by simp)]
  have hshape : '{' :: (mid ++ ['}']) = ('{' :: mid) ++ ['}'] := by simp
  rw [hshape]
  exact stripTrailFence_rbrace _

theorem subFence_core (mid : List Char) :
    subFence ('{' :: (mid ++ ['}'])) = '{' :: (mid ++ ['}']) := by
  unfold subFence
  rw [fenceAtStart_lbrace, if_neg (by simp)]
  have hshape : '{' :: (mid ++ ['}']) = ('{' :: mid) ++ ['}'] := by simp
  rw [hshape]
  exact stripTrailFence_rbrace _

theorem stages_unwrapped (w1 mid w2 : List Char)
    (hw1 : ∀ c ∈ w1, pyWsB c = true) (hw2 : ∀ c ∈ w2, pyWsB c = true) :
    pyStripChars (subFence (pyStripChars (subFenceJson (pyStripChars
      (w1 ++ ('{' :: (mid ++ ['}'])) ++ w2))))) = '{' :: (mid ++ ['}']) := by
  rw [pyStripChars_sandwich w1 mid w2 '{' '}' hw1 hw2 (by decide) (by decide),
    subFenceJson_core, pyStripChars_core, subFence_core, pyStripChars_core]

theorem subFenceJson_json_fenced (w1 mid w2 : List Char)
    (hw1 : ∀ c ∈ w1, pyWsB c = true) (hw2 : ∀ c ∈ w2, pyWsB c = true) :
    subFenceJson ("```json".data ++ ((w1 ++ ('{' :: (mid ++ ['}']))) ++ w2) ++ fence3) =
      '{' :: (mid ++ ['}']) := by
  unfold subFenceJson
  rw [if_pos (by rfl)]
  have hdrop7 : ("```json".data ++ ((w1 ++ ('{' :: (mid ++ ['}']))) ++ w2) ++ fence3).drop 7 =
      ((w1 ++ ('{' :: (mid ++ ['}']))) ++ w2) ++ fence3 := rfl
  rw [hdrop7]
  have hre : ((w1 ++ ('{' :: (mid ++ ['}']))) ++ w2) ++ fence3 =
      w1 ++ (('{' :: (mid ++ ['}'])) ++ (w2 ++ fence3)) := by simp
  rw [hre, List.dropWhile_append_of_pos hw1, List.cons_append,
    List.dropWhile_cons_of_neg (by decide)]
  have hre2 : '{' :: ((mid ++ ['}']) ++ (w2 ++ fence3)) =
      ('{' :: mid) ++ ['}'] ++ w2 ++ fence3 := by simp
  rw [hre2, stripTrailFence_ws_fence ('{' :: mid) w2 '}' hw2 (by decide)]
  simp

theorem stages_json_fenced (W1 W2 w1 mid w2 : List Char)
    (hW1 : ∀ c ∈ W1, pyWsB c = true) (hW2 : ∀ c ∈ W2, pyWsB c = true)
    (hw1 : ∀ c ∈ w1, pyWsB c = true) (hw2 : ∀ c ∈ w2, pyWsB c = true) :
    pyStripChars (subFence (pyStripChars (subFenceJson (pyStripChars
      (W1 ++ ("```json".data ++ ((w1 ++ ('{' :: (mid ++ ['}']))) ++ w2) ++ fence3) ++ W2)))))
      = '{' :: (mid ++ ['}']) := by
  have hshape : "```json".data ++ ((w1 ++ ('{' :: (mid ++ ['}']))) ++ w2) ++ fence3 =
      '\x60' :: (('\x60' :: '\x60' :: 'j' :: 's' :: 'o' :: 'n' ::
        (((w1 ++ ('{' :: (mid ++ ['}']))) ++ w2) ++ ['\x60', '\x60'])) ++ ['\x60']) := by
    simp [fence3_eq]
  rw [hshape, pyStripChars_sandwich W1 _ W2 '\x60' '\x60' hW1 hW2 (by decide) (by decide),
    ← hshape, subFenceJson_json_fenced w1 mid w2 hw1 hw2,
    pyStripChars_core, subFence_core, pyStripChars_core]

theorem toLower_ne_j_of_jsonWs {c : Char} (h : jsonWsB c = true) : Char.toLower c ≠ 'j' := by
  unfold jsonWsB at h
  simp only [Bool.or_eq_true, decide_eq_true_eq] at h
  rcases h with ((h | h) | h) | h <;> subst h <;> decide

theorem fenceJsonAtStart_fence_head (X : List Char) (c : Char) (hcX : X.head? = some c)
    (hc : Char.toLower c ≠ 'j') : fenceJsonAtStart (fence3 ++ X) = false := by
  unfold fenceJsonAtStart
  cases X with
  | nil => simp at hcX
  | cons x xs =>
    have hx : x = c := by simpa using hcX
    subst hx
    have h2 : decide ((((fence3 ++ x :: xs).drop 3).take 4).map Char.toLower = "json".data) =
        false := by
      apply decide_eq_false
      intro hcon
      have hdrop : (fence3 ++ x :: xs).drop 3 = x :: xs := by
        rw [fence3_eq]
        rfl
      rw [hdrop, show ((x :: xs).take 4).map Char.toLower =
        Char.toLower x :: (xs.take 3).map Char.toLower from rfl] at hcon
      exact hc (List.cons.inj hcon).1
    rw [h2, Bool.and_false]

theorem subFenceJson_bare_fenced (w1 mid w2 : List Char)
    (hw2 : ∀ c ∈ w2, pyWsB c = true)
    (hj : Char.toLower ((w1 ++ ('{' :: (mid ++ ['}'])) ++ w2).headI) ≠ 'j') :
    subFenceJson (fence3 ++ ((w1 ++ ('{' :: (mid ++ ['}']))) ++ w2) ++ fence3) =
      fence3 ++ (w1 ++ ('{' :: mid)) ++ ['}'] := by
  unfold subFenceJson
  have hfj : fenceJsonAtStart (fence3 ++ ((w1 ++ ('{' :: (mid ++ ['}']))) ++ w2) ++ fence3) =
      false := by
    have hassoc : fence3 ++ ((w1 ++ ('{' :: (mid ++ ['}']))) ++ w2) ++ fence3 =
        fence3 ++ (((w1 ++ ('{' :: (mid ++ ['}']))) ++ w2) ++ fence3) := by simp
    rw [hassoc]
    apply fenceJsonAtStart_fence_head _ ((w1 ++ ('{' :: (mid ++ ['}'])) ++ w2).headI)
    · cases w1 with
      | nil => simp
      | cons a t => simp
    · exact hj
  rw [hfj, if_neg (by simp)]
  have hshape : fence3 ++ ((w1 ++ ('{' :: (mid ++ ['}']))) ++ w2) ++ fence3 =
      (fence3 ++ (w1 ++ ('{' :: mid))) ++ ['}'] ++ w2 ++ fence3 := by simp
  rw [hshape, stripTrailFence_ws_fence _ w2 '}' hw2 (by decide)]

theorem subFence_fence_ws_core (w1 mid : List Char) (hw1 : ∀ c ∈ w1, pyWsB c = true) :
    subFence (fence3 ++ (w1 ++ ('{' :: mid)) ++ ['}']) = '{' :: (mid ++ ['}']) := by
  unfold subFence
  rw [if_pos (show fenceAtStart (fence3 ++ (w1 ++ ('{' :: mid)) ++ ['}']) = true from by
    unfold fenceAtStart
    rw [fence3_eq]
    rfl)]
  have hdrop : ((fence3 ++ (w1 ++ ('{' :: mid)) ++ ['}']).drop 3) =
      (w1 ++ ('{' :: mid)) ++ ['}'] := by
    rw [fence3_eq]
    rfl
  rw [hdrop]
  have hre : (w1 ++ ('{' :: mid)) ++ ['}'] = w1 ++ ('{' :: (mid ++ ['}'])) := by simp
  rw [hre, List.dropWhile_append_of_pos hw1, List.dropWhile_cons_of_neg (by decide)]
  have hshape : '{' :: (mid ++ ['}']) = ('{' :: mid) ++ ['}'] := by simp
  rw [hshape]
  exact stripTrailFence_rbrace _

theorem stages_bare_fenced (W1 W2 w1 mid w2 : List Char)
    (hW1 : ∀ c ∈ W1, pyWsB c = true) (hW2 : ∀ c ∈ W2, pyWsB c = true)
    (hw1 : ∀ c ∈ w1, pyWsB c = true) (hw2 : ∀ c ∈ w2, pyWsB c = true)
    (hj : Char.toLower ((w1 ++ ('{' :: (mid ++ ['}'])) ++ w2).headI) ≠ 'j') :
    pyStripChars (subFence (pyStripChars (subFenceJson (pyStripChars
      (W1 ++ (fence3 ++ ((w1 ++ ('{' :: (mid ++ ['}']))) ++ w2) ++ fence3) ++ W2)))))
      = '{' :: (mid ++ ['}']) := by
  have hshape : fence3 ++ ((w1 ++ ('{' :: (mid ++ ['}']))) ++ w2) ++ fence3 =
      '\x60' :: (('\x60' :: '\x60' ::
        (((w1 ++ ('{' :: (mid ++ ['}']))) ++ w2) ++ ['\x60', '\x60'])) ++ ['\x60']) := by
    simp [fence3_eq]
  rw [hshape, pyStripChars_sandwich W1 _ W2 '\x60' '\x60' hW1 hW2 (by decide) (by decide),
    ← hshape, subFenceJson_bare_fenced w1 mid w2 hw2 hj]
  have hshape2 : fence3 ++ (w1 ++ ('{' :: mid)) ++ ['}'] =
      '\x60' :: (('\x60' :: '\x60' :: (w1 ++ ('{' :: mid))) ++ ['}']) := by
    simp [fence3_eq]
  have hsand := pyStripChars_sandwich [] ('\x60' :: '\x60' :: (w1 ++ ('{' :: mid))) []
    '\x60' '}' (by simp) (by simp) (by decide) (by decide)
  simp only [List.nil_append, List.append_nil] at hsand
  rw [hshape2, hsand, ← hshape2, subFence_fence_ws_core w1 mid hw1, pyStripChars_core]

theorem extract_json_congr {s1 s2 : String}
    (h : pyStripChars (subFence (pyStripChars (subFenceJson (pyStripChars s1.data)))) =
         pyStripChars (subFence (pyStripChars (subFenceJson (pyStripChars s2.data))))) :
    _extract_json s1 = _extract_json s2 := by
  simp only [_extract_json]
  rw [h]

/-- Claim C8: wrapping a JSON-object response in leading triple-backtick
fences (with or without the `json` language tag) and a trailing fence, with
optional surrounding whitespace, does not change the result of
`_extract_json` — the fence stripping reduces both to the same text. -/
theorem fence_roundtrip (t W1 W2 : String) (o : List (String × JsonVal))
    (h : loads t = some (JsonVal.obj o))
    (hW1 : ∀ c ∈ W1.data, pyWsB c = true) (hW2 : ∀ c ∈ W2.data, pyWsB c = true) :
    _extract_json (W1 ++ "```json" ++ t ++ "```" ++ W2) = _extract_json t ∧
    _extract_json (W1 ++ "```" ++ t ++ "```" ++ W2) = _extract_json t := by
  obtain ⟨w1, mid, w2, hdata, hw1j, hw2j⟩ := loads_obj_shape (h : loadsChars t.data = _)
  have hw1 : ∀ c ∈ w1, pyWsB c = true := fun c hc => pyWs_of_jsonWs (hw1j c hc)
  have hw2 : ∀ c ∈ w2, pyWsB c = true := fun c hc => pyWs_of_jsonWs (hw2j c hc)
  have hstages_t : pyStripChars (subFence (pyStripChars (subFenceJson
      (pyStripChars t.data)))) = '{' :: (mid ++ ['}']) := by
    rw [hdata]
    exact stages_unwrapped w1 mid w2 hw1 hw2
  constructor
  · apply extract_json_congr
    have hd : (W1 ++ "```json" ++ t ++ "```" ++ W2).data =
        W1.data ++ ("```json".data ++ ((w1 ++ ('{' :: (mid ++ ['}']))) ++ w2) ++ fence3)
          ++ W2.data := by
      rw [str_data_append, str_data_append, str_data_append, str_data_append, hdata]
      simp [fence3]
    rw [hd, stages_json_fenced W1.data W2.data w1 mid w2 hW1 hW2 hw1 hw2, hstages_t]
  · apply extract_json_congr
    have hj : Char.toLower ((w1 ++ ('{' :: (mid ++ ['}'])) ++ w2).headI) ≠ 'j' := by
      cases w1 with
      | nil =>
        have hh : (([] : List Char) ++ ('{' :: (mid ++ ['}'])) ++ w2).headI = '{' := rfl
        rw [hh]
        decide
      | cons a t' =>
        have hh : ((a :: t') ++ ('{' :: (mid ++ ['}'])) ++ w2).headI = a := rfl
        rw [hh]
        exact toLower_ne_j_of_jsonWs (hw1j a (by simp))
    have hd : (W1 ++ "```" ++ t ++ "```" ++ W2).data =
        W1.data ++ (fence3 ++ ((w1 ++ ('{' :: (mid ++ ['}']))) ++ w2) ++ fence3)
          ++ W2.data := by
      rw [str_data_append, str_data_append, str_data_append, str_data_append, hdata]
      simp [fence3]
    rw [hd, stages_bare_fenced W1.data W2.data w1 mid w2 hW1 hW2 hw1 hw2 hj, hstages_t]

theorem fence_roundtrip_witness :
    _extract_json (" " ++ "```json" ++ "\x7b\"a\": 1\x7d" ++ "```" ++ "\n") =
      _extract_json "\x7b\"a\": 1\x7d" ∧
    _extract_json (" " ++ "```" ++ "\x7b\"a\": 1\x7d" ++ "```" ++ "\n") =
      _extract_json "\x7b\"a\": 1\x7d" :=
  fence_roundtrip "\x7b\"a\": 1\x7d" " " "\n" [("a", JsonVal.num "1")] (by rfl)
    (by decide) (by decide)

/-! ### C6: the map-reduce protocol of the orchestrator -/

theorem asStrs_map_str : ∀ l : List String, asStrs (l.map JsonVal.str) = .ok l
  | [] => rfl
  | s :: rest => by
    simp [asStrs, asStrs_map_str rest, Except.map]

theorem mapLoop_spec (gen : Nat → GenCall → Except String ObjT) (n : Nat) (t : Int)
    (resp : Nat → ObjT) (sm : Nat → String) :
    ∀ (chunks : List String) (i : Nat),
      (∀ j (hj : j < chunks.length),
        gen (i + j) ⟨chunks.get ⟨j, hj⟩,
          _proportional_words (n : Int) ((pySplit (chunks.get ⟨j, hj⟩)).length : Int) t, 0⟩
          = .ok (resp (i + j))) →
      (∀ j, j < chunks.length →
        pyGetD (resp (i + j)) "summary" (.str "") = .str (sm (i + j))) →
      mapLoop gen n t i chunks =
        (.ok ((List.range chunks.length).map (fun j => JsonVal.str (sm (i + j)))),
         chunks.map (fun c =>
           ⟨c, _proportional_words (n : Int) ((pySplit c).length : Int) t, 0⟩))
  | [], _, _, _ => by simp [mapLoop]
  | c :: rest, i, hgen, hsum => by
    have h0 : gen i ⟨c, _proportional_words (n : Int) ((pySplit c).length : Int) t, 0⟩
        = .ok (resp i) := hgen 0 (by simp)
    have hs0 : pyGetD (resp i) "summary" (.str "") = .str (sm i) := hsum 0 (by simp)
    have hrest := mapLoop_spec gen n t resp sm rest (i + 1)
      (fun j hj => by
        have h := hgen (j + 1) (by simpa using Nat.succ_lt_succ hj)
        have e : i + (j + 1) = i + 1 + j := by omega
        rw [e] at h
        exact h)
      (fun j hj => by
        have h := hsum (j + 1) (by simpa using Nat.succ_lt_succ hj)
        have e : i + (j + 1) = i + 1 + j := by omega
        rw [e] at h
        exact h)
    have hmm : (List.range rest.length).map (fun j => JsonVal.str (sm (i + 1 + j))) =
        (List.range rest.length).map (fun j => JsonVal.str (sm (i + (j + 1)))) :=
      List.map_congr_left (fun j _ => by rw [Nat.add_right_comm, Nat.add_assoc])
    simp only [mapLoop, h0, hrest, List.length_cons, List.range_succ_eq_map,
      List.map_cons, List.map_map, Nat.add_zero, hs0, hmm, Except.map,
      Function.comp, Nat.succ_eq_add_one]
    have hcomp : ((fun j => JsonVal.str (sm (i + j))) ∘ Nat.succ) =
        (fun j => JsonVal.str (sm (i + (j + 1)))) := funext fun j => rfl
    rw [hcomp]

/-- Claim C6: on the long-input path, `summarize_document` calls the generator
once per chunk in chunk order with `takeaways_count = 0` and the chunk's
proportional budget as `summary_words` (the `Mapping` state), then makes
exactly one further call whose text is the double-newline join, in chunk
order, of the non-empty per-chunk summaries, with the user's `target_words`
and `takeaways_count` (the `Reducing` state), and returns that call's result
unchanged. -/
theorem map_reduce_protocol (gen : Nat → GenCall → Except String ObjT)
    (raw_text : Option String) (target_words takeaways_count : Int)
    (resp : Nat → ObjT) (sm : Nat → String)
    (h60 : ¬ (pySplit (_normalize_whitespace raw_text)).length < 60)
    (hgen : ∀ j (hj : j < (docChunks raw_text).length),
      gen j (chunkCall raw_text target_words ((docChunks raw_text).get ⟨j, hj⟩)) =
        .ok (resp j))
    (hsum : ∀ j, j < (docChunks raw_text).length →
      pyGetD (resp j) "summary" (.str "") = .str (sm j)) :
    summarize_document gen raw_text target_words takeaways_count =
      (gen (docChunks raw_text).length
         ⟨joinNN (((List.range (docChunks raw_text).length).map sm).filter
             (fun s => decide (pyStrip s ≠ ""))), target_words, takeaways_count⟩,
       (docChunks raw_text).map (chunkCall raw_text target_words)
         ++ [⟨joinNN (((List.range (docChunks raw_text).length).map sm).filter
             (fun s => decide (pyStrip s ≠ ""))), target_words, takeaways_count⟩]) := by
  have hml := mapLoop_spec gen ((pySplit (_normalize_whitespace raw_text)).length)
      target_words resp sm (docChunks raw_text) 0
      (fun j hj => by
        have h := hgen j hj
        rw [Nat.zero_add]
        exact h)
      (fun j hj => by rw [Nat.zero_add]; exact hsum j hj)
  simp only [Nat.zero_add] at hml
  have hstr : (List.range (docChunks raw_text).length).map (fun j => JsonVal.str (sm j)) =
      ((List.range (docChunks raw_text).length).map sm).map JsonVal.str := by
    rw [List.map_map]
    rfl
  rw [hstr] at hml
  simp only [summarize_document, docChunks, chunkCall] at hml ⊢
  rw [if_neg h60, hml]
  simp only [asStrs_map_str, List.length_map]
  rfl

theorem map_reduce_protocol_witness :
    summarize_document (fun _ _ => Except.ok [("summary", JsonVal.str "S")])
      (some "a a a a a a a a a a a a a a a a a a a a a a a a a a a a a a a a a a a a a a a a a a a a a a a a a a a a a a a a a a a a") 200 3 =
      (Except.ok [("summary", JsonVal.str "S")],
       (docChunks (some "a a a a a a a a a a a a a a a a a a a a a a a a a a a a a a a a a a a a a a a a a a a a a a a a a a a a a a a a a a a a")).map
           (chunkCall (some "a a a a a a a a a a a a a a a a a a a a a a a a a a a a a a a a a a a a a a a a a a a a a a a a a a a a a a a a a a a a") 200)
         ++ [⟨joinNN (((List.range (docChunks (some "a a a a a a a a a a a a a a a a a a a a a a a a a a a a a a a a a a a a a a a a a a a a a a a a a a a a a a a a a a a a")).length).map
             (fun _ => "S")).filter (fun s => decide (pyStrip s ≠ ""))), 200, 3⟩]) :=
  map_reduce_protocol (fun _ _ => Except.ok [("summary", JsonVal.str "S")])
    (some "a a a a a a a a a a a a a a a a a a a a a a a a a a a a a a a a a a a a a a a a a a a a a a a a a a a a a a a a a a a a") 200 3
    (fun _ => [("summary", JsonVal.str "S")]) (fun _ => "S")
    (by decide) (fun _ _ => rfl) (fun _ _ => rfl)
